import Mathlib

/-!
Verification of the external merge sort implemented in `Rastocka_mergesort.py`.

The development embeds the program at two levels.

At the character level, a run file is its list of characters (text mode over
ASCII digits, so characters and bytes coincide) and `read_blocks` is embedded
step by step: `read_blocks_step` is one iteration of its `while True` loop,
`ReadBlocksTo` is the big-step relation describing a terminating execution,
and `read_blocks` iterates the step function under an explicit iteration
budget.  The integer encoding itself is, per the design, a thin external
collaborator, so records are identified with their serialized line bodies
(nonempty, newline-free character lists).

At the record level, a run is its list of integer records; file names, file
creation and deletion are modelled away.  The block reader that feeds
`merge_K_runs` is abstracted to the sequence of decoded record blocks it
yields, supplied by a grouping function `g : List Int → List (List Int)`;
any block size gives such a grouping (each yielded block decodes to a
nonempty record list whose concatenation is the run).  Every fallible Python
operation (uncaught `StopIteration`, `IndexError` on `pop(0)` or `runs[0]`,
`ValueError` on a zero `range` step) is modelled by `Option`.
-/

namespace EMS

/-! ## Character-level model of the block reader -/

/-- Index of the last occurrence of the newline character in a character
list (Python `block.rfind("\n")` yields this index, or `-1`, modelled as
`none`, when there is no newline). -/
def rfindNL : List Char → Option Nat
  | [] => none
  | c :: cs =>
    match rfindNL cs with
    | some j => some (j + 1)
    | none => if c = '\n' then some 0 else none

/-- One iteration of the `while True` loop of `read_blocks`.  The state is
the not-yet-consumed suffix of the file (reads are sequential; the rewind
never moves before the start of the current raw read).  Returns `none` when
the raw read comes back empty (the `break`), otherwise the yielded block and
the new suffix.  When the raw read does not end in a newline, the cursor is
moved back to just after the last newline of the read, and only the part up
to that newline is yielded; when the read holds no newline at all, the whole
read is undone and the empty block is yielded. -/
def read_blocks_step (block_size : Nat) (rest : List Char) :
    Option (List Char × List Char) :=
  let block := rest.take block_size
  if block = [] then none
  else if block.getLast? = some '\n' then some (block, rest.drop block_size)
  else
    match rfindNL block with
    | some j => some (block.take (j + 1), rest.drop (j + 1))
    | none => some ([], rest)

/-- Blocks yielded by `read_blocks` within `fuel` iterations of its loop. -/
def read_blocks (fuel : Nat) (block_size : Nat) (rest : List Char) :
    List (List Char) :=
  match fuel with
  | 0 => []
  | fuel + 1 =>
    match read_blocks_step block_size rest with
    | none => []
    | some (b, rest') => b :: read_blocks fuel block_size rest'

/-- Big-step execution of `read_blocks`: starting from the suffix `rest`,
the generator terminates (reaches its `break`) having yielded exactly
`blocks`. -/
inductive ReadBlocksTo (block_size : Nat) : List Char → List (List Char) → Prop
  | done (rest : List Char) :
      read_blocks_step block_size rest = none → ReadBlocksTo block_size rest []
  | step (rest b rest' : List Char) (bs : List (List Char)) :
      read_blocks_step block_size rest = some (b, rest') →
      ReadBlocksTo block_size rest' bs → ReadBlocksTo block_size rest (b :: bs)

/-- Content of a run file holding the given record lines: `create_run_file`
writes each record as its line followed by a newline. -/
def serializeLines (lines : List (List Char)) : List Char :=
  (lines.map (fun l => l ++ ['\n'])).flatten

/-- Python `chunk.split("\n")`. -/
def splitNL : List Char → List (List Char)
  | [] => [[]]
  | c :: cs =>
    if c = '\n' then [] :: splitNL cs
    else
      match splitNL cs with
      | [] => [[c]]
      | p :: ps => (c :: p) :: ps

/-- Decoding file content into record lines: split on newlines and drop the
blank pieces, as the merger does with
`[int(line) for line in lines if line.strip()]`. -/
def splitRecs (cs : List Char) : List (List Char) :=
  (splitNL cs).filter (fun l => !l.isEmpty)

/-- A well-formed record line: nonempty and newline-free (the decimal image
of an integer is such a line). -/
def wfLine (l : List Char) : Prop := l ≠ [] ∧ '\n' ∉ l

instance (l : List Char) : Decidable (wfLine l) := by
  unfold wfLine; infer_instance

/-- The maximal prefix of the record lines that fits inside a raw read of
`S` characters, each line costing its length plus one for its newline,
together with the remaining lines. -/
def greedyTake (S : Nat) : List (List Char) → List (List Char) × List (List Char)
  | [] => ([], [])
  | l :: ls =>
    if l.length + 1 ≤ S then
      let p := greedyTake (S - (l.length + 1)) ls
      (l :: p.1, p.2)
    else ([], l :: ls)

/-! ## Record-level model of the pipeline -/

/-- Fixed serialized size charged per record (`NUMBER_SIZE = 40`). -/
def NUMBER_SIZE : Nat := 40

/-- Loop of `read_numbers_and_divide`: `run` is the current buffer,
`current_bytes` its accounted size; the result is the list of yielded runs.
Before a record is appended the accounted size is checked against the
memory limit, and on overflow a nonempty buffer is yielded first; a nonempty
remainder is yielded at end of stream. -/
def read_numbers_and_divide_aux (memory_limit : Nat) :
    List Int → List Int → Nat → List (List Int)
  | [], run, _ => if run.isEmpty then [] else [run]
  | n :: ns, run, current_bytes =>
    if current_bytes + NUMBER_SIZE > memory_limit then
      if run.isEmpty then
        read_numbers_and_divide_aux memory_limit ns [n] NUMBER_SIZE
      else
        run :: read_numbers_and_divide_aux memory_limit ns [n] NUMBER_SIZE
    else
      read_numbers_and_divide_aux memory_limit ns (run ++ [n]) (current_bytes + NUMBER_SIZE)

/-- `read_numbers_and_divide`: divide the input stream into runs that
respect the memory limit. -/
def read_numbers_and_divide (numbers : List Int) (memory_limit : Nat) :
    List (List Int) :=
  read_numbers_and_divide_aux memory_limit numbers [] 0

/-- `generate_runs`: sort each run in memory (`run.sort()`) and persist it;
the result is the list of run contents in creation order. -/
def generate_runs (numbers : List Int) (memory_limit : Nat) : List (List Int) :=
  (read_numbers_and_divide numbers memory_limit).map (List.insertionSort (· ≤ ·))

/-- Python tuple order on heap entries `(record value, run index)`:
first by value, ties by run index. -/
def lexLe (a b : Int × Nat) : Prop := a.1 < b.1 ∨ (a.1 = b.1 ∧ a.2 ≤ b.2)

instance (a b : Int × Nat) : Decidable (lexLe a b) := by
  unfold lexLe; infer_instance

instance : IsAntisymm (Int × Nat) lexLe := ⟨by
  intro a b h1 h2
  obtain ⟨a1, a2⟩ := a
  obtain ⟨b1, b2⟩ := b
  unfold lexLe at h1 h2
  simp only [Prod.mk.injEq]
  constructor <;> omega⟩

/-- `heapq.heappop`: remove and return the least entry in tuple order
(run indices in the heap are pairwise distinct, so the least entry is
unique and the pop is deterministic). -/
def popMin : List (Int × Nat) → Option ((Int × Nat) × List (Int × Nat))
  | [] => none
  | e :: es =>
    match popMin es with
    | none => some (e, [])
    | some (m, rest) => if lexLe e m then some (e, es) else some (m, e :: rest)

/-- Seeding loop of `merge_K_runs`: for each reader, pull the first block
(`next` on an exhausted reader raises an uncaught `StopIteration`: `none`),
keep its tail as the run's decoded queue and push its first record, tagged
with the run index, onto the heap (`pop(0)` on an empty decoded block raises
`IndexError`: `none`). -/
def seedAux : Nat → List (List (List Int)) →
    Option (List (List Int) × List (Int × Nat) × List (List (List Int)))
  | _, [] => some ([], [], [])
  | index, r :: rs =>
    match r with
    | [] => none
    | b :: bs =>
      match b with
      | [] => none
      | x :: xs =>
        match seedAux (index + 1) rs with
        | none => none
        | some (qs, h, rds) => some (xs :: qs, (x, index) :: h, bs :: rds)

/-- The `while heap` loop of `merge_K_runs`, under an explicit iteration
budget.  State: `readers` (per run, the blocks its reader has not yielded
yet), `blocks` (per run, the current decoded queue), `heap`.  Produces the
output sequence tagged with run indices; `none` models an out-of-range run
index, an `IndexError` (`pop(0)` of an empty decoded block), or an exhausted
budget. -/
def mergeLoop : Nat → List (List (List Int)) → List (List Int) →
    List (Int × Nat) → Option (List (Int × Nat))
  | 0, _, _, _ => none
  | fuel + 1, readers, blocks, heap =>
    match popMin heap with
    | none => some []
    | some ((v, i), heap') =>
      match blocks[i]? with
      | none => none
      | some q =>
        match q with
        | x :: xs =>
          match mergeLoop fuel readers (blocks.set i xs) (heap' ++ [(x, i)]) with
          | none => none
          | some out => some ((v, i) :: out)
        | [] =>
          match readers[i]? with
          | none => none
          | some rblocks =>
            match rblocks with
            | [] =>
              match mergeLoop fuel readers blocks heap' with
              | none => none
              | some out => some ((v, i) :: out)
            | b :: bs =>
              match b with
              | [] => none
              | x :: xs =>
                match mergeLoop fuel (readers.set i bs) (blocks.set i xs)
                    (heap' ++ [(x, i)]) with
                | none => none
                | some out => some ((v, i) :: out)

/-- `merge_K_runs`, output tagged with run indices.  `readers` holds, per
input run, the decoded record blocks its `read_blocks` generator yields.
The iteration budget, one more than the total record count, is proved
sufficient below. -/
def merge_K_runs_tagged (readers : List (List (List Int))) :
    Option (List (Int × Nat)) :=
  match seedAux 0 readers with
  | none => none
  | some (blocks, heap, rds) =>
    mergeLoop ((readers.map (fun r => r.flatten.length)).sum + 1) rds blocks heap

/-- `merge_K_runs`: the merged record sequence written to the output file. -/
def merge_K_runs (readers : List (List (List Int))) : Option (List Int) :=
  (merge_K_runs_tagged readers).map (fun out => out.map (fun e => e.1))

/-- Recursion worker for `chunksOf`; the budget argument, always at least
the list length, only forces structural termination and does not affect the
result. -/
def chunksOfAux {α : Type} (Ksub1 : Nat) : Nat → List α → List (List α)
  | 0, _ => []
  | _ + 1, [] => []
  | fuel + 1, x :: xs =>
    (x :: xs.take Ksub1) :: chunksOfAux Ksub1 fuel (xs.drop Ksub1)

/-- The slices `runs[i : i + K]` for `K = Ksub1 + 1`
(`range(0, len(runs), K)` with step `0` raises `ValueError`, handled by the
caller). -/
def chunksOf {α : Type} (Ksub1 : Nat) (l : List α) : List (List α) :=
  chunksOfAux Ksub1 l.length l

/-- Evaluate an optional-valued function across a list, failing when any
call fails. -/
def mapOpt (f : α → Option β) : List α → Option (List β)
  | [] => some []
  | a :: as =>
    match f a, mapOpt f as with
    | some b, some bs => some (b :: bs)
    | _, _ => none

/-- One pass of the `while len(runs) > 1` loop of `merge_runs`: slice the
frontier into groups of at most `K` consecutive runs and merge each group.
`g` models the block readers: it maps a run's content to the decoded record
blocks its reader yields for the configured block size.  `K = 0` models the
`ValueError` raised by `range(0, len(runs), 0)`. -/
def merge_runs_pass (g : List Int → List (List Int)) (K : Nat)
    (runs : List (List Int)) : Option (List (List Int)) :=
  match K with
  | 0 => none
  | Ksub1 + 1 => mapOpt (fun batch => merge_K_runs (batch.map g)) (chunksOf Ksub1 runs)

/-- `merge_runs`, under an explicit bound on the number of merge passes
(shown sufficient whenever the loop terminates at all).  The final
`os.rename(runs[0], output)` raises `IndexError` on an empty frontier,
modelled by `none`. -/
def merge_runs (g : List Int → List (List Int)) (K : Nat) :
    Nat → List (List Int) → Option (List Int)
  | 0, runs => if runs.length > 1 then none else runs.head?
  | fuel + 1, runs =>
    if runs.length > 1 then
      match merge_runs_pass g K runs with
      | none => none
      | some newRuns => merge_runs g K fuel newRuns
    else runs.head?

/-- `external_merge_sort`: one third of the memory budget goes to run
generation, and merge fan-in is the full budget divided by the block size.
The pass budget `numbers.length + 1` exceeds the number of initial runs and
is proved sufficient whenever the merge loop makes progress. -/
def external_merge_sort (g : List Int → List (List Int)) (numbers : List Int)
    (memory_limit block_size : Nat) : Option (List Int) :=
  merge_runs g (memory_limit / block_size) (numbers.length + 1)
    (generate_runs numbers (memory_limit / 3))

/-! ## Ghost state for the merge loop proofs -/

/-- Tag every record of a run with its run index (mirroring the heap's
`(value, run index)` tuples). -/
def tagRun (i : Nat) (l : List Int) : List (Int × Nat) :=
  l.map (fun v => (v, i))

/-- Records of run `i` still held by the merge state outside the heap:
first the current decoded queue, then the blocks the reader has not yielded
yet. -/
def runRem (blocks : List (List Int)) (readers : List (List (List Int)))
    (i : Nat) : List Int :=
  blocks.getD i [] ++ (readers.getD i []).flatten

/-- Every record the merge loop still has to emit, tagged with its run
index: the heap entries plus each run's remaining records. -/
def stateRem (k : Nat) (blocks : List (List Int))
    (readers : List (List (List Int))) (heap : List (Int × Nat)) :
    List (Int × Nat) :=
  heap ++ ((List.range k).map (fun i => tagRun i (runRem blocks readers i))).flatten

/-- Invariant of the `while heap` loop of `merge_K_runs`: the state tracks
`k` runs; heap entries carry pairwise distinct in-range run indices; each
entry's value, followed by its run's remaining records, is sorted (so the
entry is that run's current head); a run without a heap entry is exhausted;
and no pending decoded block is empty. -/
def MergeInv (k : Nat) (readers : List (List (List Int)))
    (blocks : List (List Int)) (heap : List (Int × Nat)) : Prop :=
  readers.length = k ∧ blocks.length = k ∧
  List.Pairwise (fun a b => a.2 ≠ b.2) heap ∧
  (∀ e ∈ heap, e.2 < k) ∧
  (∀ e ∈ heap, List.Sorted (· ≤ ·) (e.1 :: runRem blocks readers e.2)) ∧
  (∀ i < k, (∀ e ∈ heap, e.2 ≠ i) → runRem blocks readers i = []) ∧
  (∀ i < k, ∀ b ∈ readers.getD i [], b ≠ [])

/-- The decoded block sequence a reader yields when the block size is large
enough to hold a whole run: one block per nonempty run. -/
def wholeRun (r : List Int) : List (List Int) :=
  if r.isEmpty then [] else [r]

/-- Every record of every reader, tagged with its run index — the multiset
`merge_K_runs` must emit. -/
def allTagged (readers : List (List (List Int))) : List (Int × Nat) :=
  ((List.range readers.length).map
    (fun j => tagRun j ((readers.getD j []).flatten))).flatten

/-! ## Run generation lemmas -/

theorem read_numbers_and_divide_aux_flatten (L : Nat) :
    ∀ (ns run : List Int) (cb : Nat),
      (read_numbers_and_divide_aux L ns run cb).flatten = run ++ ns := by
  intro ns
  induction ns with
  | nil =>
    intro run cb
    rcases run with _ | ⟨a, run⟩
    · simp [read_numbers_and_divide_aux]
    · simp [read_numbers_and_divide_aux]
  | cons n ns ih =>
    intro run cb
    by_cases hover : cb + NUMBER_SIZE > L
    · rcases run with _ | ⟨a, run⟩
      · simp [read_numbers_and_divide_aux, hover, ih]
      · simp [read_numbers_and_divide_aux, hover, ih]
    · simp [read_numbers_and_divide_aux, hover, ih]

theorem read_numbers_and_divide_flatten (numbers : List Int) (L : Nat) :
    (read_numbers_and_divide numbers L).flatten = numbers := by
  simpa using read_numbers_and_divide_aux_flatten L numbers [] 0

theorem read_numbers_and_divide_aux_size (L : Nat) :
    ∀ (ns run : List Int) (cb : Nat),
      NUMBER_SIZE * run.length ≤ L ∨ (run.length = 1 ∧ L < NUMBER_SIZE) →
      cb = NUMBER_SIZE * run.length →
      ∀ r ∈ read_numbers_and_divide_aux L ns run cb,
        NUMBER_SIZE * r.length ≤ L ∨ (r.length = 1 ∧ L < NUMBER_SIZE) := by
  intro ns
  induction ns with
  | nil =>
    intro run cb hrun _ r hr
    rcases run with _ | ⟨a, run⟩
    · simp [read_numbers_and_divide_aux] at hr
    · simp [read_numbers_and_divide_aux] at hr
      subst hr; exact hrun
  | cons n ns ih =>
    intro run cb hrun hcb r hr
    by_cases hover : cb + NUMBER_SIZE > L
    · rcases run with _ | ⟨a, run⟩
      · simp only [read_numbers_and_divide_aux, hover, if_pos, List.isEmpty_nil,
          if_true] at hr
        refine ih [n] NUMBER_SIZE ?_ (by simp) r hr
        right
        constructor
        · simp
        · simp only [List.length_nil, Nat.mul_zero] at hcb
          omega
      · simp only [read_numbers_and_divide_aux, hover, if_pos, List.isEmpty_cons,
          if_false, Bool.false_eq_true, List.mem_cons] at hr
        rcases hr with hr | hr
        · subst hr; exact hrun
        · refine ih [n] NUMBER_SIZE ?_ (by simp) r hr
          by_cases h40 : NUMBER_SIZE * 1 ≤ L
          · left; simpa using h40
          · right; exact ⟨by simp, by omega⟩
    · simp only [read_numbers_and_divide_aux, hover, if_neg, if_false] at hr
      refine ih (run ++ [n]) (cb + NUMBER_SIZE) ?_ (by simp [hcb, Nat.mul_add]) r hr
      left
      have : cb + NUMBER_SIZE ≤ L := by omega
      simp only [List.length_append, List.length_cons, List.length_nil,
        Nat.mul_add, Nat.mul_one]
      omega

theorem read_numbers_and_divide_size (numbers : List Int) (L : Nat) :
    ∀ r ∈ read_numbers_and_divide numbers L,
      NUMBER_SIZE * r.length ≤ L ∨ (r.length = 1 ∧ L < NUMBER_SIZE) := by
  exact read_numbers_and_divide_aux_size L numbers [] 0 (by simp) (by simp)

theorem read_numbers_and_divide_aux_ne_nil (L : Nat) :
    ∀ (ns run : List Int) (cb : Nat),
      ∀ r ∈ read_numbers_and_divide_aux L ns run cb, r ≠ [] := by
  intro ns
  induction ns with
  | nil =>
    intro run cb r hr
    rcases run with _ | ⟨a, run⟩
    · simp [read_numbers_and_divide_aux] at hr
    · simp [read_numbers_and_divide_aux] at hr
      subst hr; simp
  | cons n ns ih =>
    intro run cb r hr
    by_cases hover : cb + NUMBER_SIZE > L
    · rcases run with _ | ⟨a, run⟩
      · simp only [read_numbers_and_divide_aux, hover, if_pos, List.isEmpty_nil,
          if_true] at hr
        exact ih [n] NUMBER_SIZE r hr
      · simp only [read_numbers_and_divide_aux, hover, if_pos, List.isEmpty_cons,
          if_false, Bool.false_eq_true, List.mem_cons] at hr
        rcases hr with hr | hr
        · subst hr; simp
        · exact ih [n] NUMBER_SIZE r hr
    · simp only [read_numbers_and_divide_aux, hover, if_neg, if_false] at hr
      exact ih (run ++ [n]) (cb + NUMBER_SIZE) r hr

theorem read_numbers_and_divide_ne_nil (numbers : List Int) (L : Nat) :
    ∀ r ∈ read_numbers_and_divide numbers L, r ≠ [] :=
  read_numbers_and_divide_aux_ne_nil L numbers [] 0

theorem read_numbers_and_divide_aux_single (L : Nat) :
    ∀ (ns run : List Int) (cb : Nat), cb = NUMBER_SIZE * run.length →
      cb + NUMBER_SIZE * ns.length ≤ L → run ≠ [] →
      read_numbers_and_divide_aux L ns run cb = [run ++ ns] := by
  intro ns
  induction ns with
  | nil =>
    intro run cb _ _ hne
    rcases run with _ | ⟨a, run⟩
    · exact absurd rfl hne
    · simp [read_numbers_and_divide_aux]
  | cons n ns ih =>
    intro run cb hcb hle hne
    have hover : ¬ cb + NUMBER_SIZE > L := by
      simp only [List.length_cons, Nat.mul_add, Nat.mul_one] at hle
      omega
    simp only [read_numbers_and_divide_aux, hover, if_neg, if_false]
    rw [ih (run ++ [n]) (cb + NUMBER_SIZE) (by simp [hcb, Nat.mul_add])
      (by simp only [List.length_cons, Nat.mul_add, Nat.mul_one] at hle ⊢; omega)
      (by simp)]
    simp

theorem read_numbers_and_divide_single (numbers : List Int) (L : Nat)
    (h : NUMBER_SIZE * numbers.length ≤ L) (hne : numbers ≠ []) :
    read_numbers_and_divide numbers L = [numbers] := by
  rcases numbers with _ | ⟨n, ns⟩
  · exact absurd rfl hne
  · have hover : ¬ (0 + NUMBER_SIZE > L) := by
      simp only [List.length_cons, Nat.mul_add, Nat.mul_one] at h
      omega
    unfold read_numbers_and_divide read_numbers_and_divide_aux
    simp only [hover, if_neg, if_false, List.nil_append]
    exact read_numbers_and_divide_aux_single L ns [n] NUMBER_SIZE (by simp)
      (by simp only [List.length_cons, Nat.mul_add, Nat.mul_one] at h ⊢; omega)
      (by simp)

theorem flatten_map_insertionSort_perm (rs : List (List Int)) :
    ((rs.map (List.insertionSort (· ≤ ·))).flatten).Perm rs.flatten := by
  induction rs with
  | nil => simp
  | cons r rs ih =>
    simp only [List.map_cons, List.flatten_cons]
    exact (List.perm_insertionSort _ r).append ih

theorem generate_runs_sorted (numbers : List Int) (L : Nat) :
    ∀ r ∈ generate_runs numbers L, List.Sorted (· ≤ ·) r := by
  intro r hr
  simp only [generate_runs, List.mem_map] at hr
  obtain ⟨s, _, rfl⟩ := hr
  exact List.sorted_insertionSort _ s

theorem generate_runs_ne_nil (numbers : List Int) (L : Nat) :
    ∀ r ∈ generate_runs numbers L, r ≠ [] := by
  intro r hr
  simp only [generate_runs, List.mem_map] at hr
  obtain ⟨s, hs, rfl⟩ := hr
  have hne := read_numbers_and_divide_ne_nil numbers L s hs
  intro hcon
  have hp := List.perm_insertionSort (α := Int) (· ≤ ·) s
  rw [hcon] at hp
  exact hne hp.symm.eq_nil

theorem generate_runs_flatten_perm (numbers : List Int) (L : Nat) :
    ((generate_runs numbers L).flatten).Perm numbers := by
  have h1 := flatten_map_insertionSort_perm (read_numbers_and_divide numbers L)
  rw [read_numbers_and_divide_flatten] at h1
  exact h1

/-! ## Frontier slicing lemmas -/

theorem chunksOfAux_congr {α : Type} (K : Nat) :
    ∀ (n f f' : Nat) (l : List α), l.length ≤ f → l.length ≤ f' →
      l.length ≤ n → chunksOfAux K f l = chunksOfAux K f' l := by
  intro n
  induction n with
  | zero =>
    intro f f' l hf hf' hn
    have : l = [] := List.length_eq_zero.mp (Nat.le_zero.mp hn)
    subst this
    cases f <;> cases f' <;> rfl
  | succ n ih =>
    intro f f' l hf hf' _
    rcases l with _ | ⟨x, xs⟩
    · cases f <;> cases f' <;> rfl
    · rcases f with _ | f
      · simp at hf
      · rcases f' with _ | f'
        · simp at hf'
        · unfold chunksOfAux
          congr 1
          refine ih f f' (xs.drop K) ?_ ?_ ?_ <;>
            simp only [List.length_drop, List.length_cons] at * <;> omega

theorem chunksOf_cons {α : Type} (K : Nat) (x : α) (xs : List α) :
    chunksOf K (x :: xs) =
      (x :: xs).take (K + 1) :: chunksOf K ((x :: xs).drop (K + 1)) := by
  show chunksOfAux K (xs.length + 1) (x :: xs) = _
  unfold chunksOfAux
  show (x :: xs.take K) :: chunksOfAux K xs.length (xs.drop K) =
    (x :: xs.take K) :: chunksOfAux K (xs.drop K).length (xs.drop K)
  congr 1
  refine chunksOfAux_congr K (xs.drop K).length xs.length (xs.drop K).length
    (xs.drop K) ?_ le_rfl le_rfl
  simp [List.length_drop]

theorem chunksOf_length_le_aux {α : Type} (K : Nat) :
    ∀ (n : Nat) (l : List α), l.length ≤ n →
      ∀ c ∈ chunksOf K l, c.length ≤ K + 1 := by
  intro n
  induction n with
  | zero =>
    intro l hl c hc
    rcases l with _ | ⟨x, xs⟩
    · simp [chunksOf, chunksOfAux] at hc
    · simp at hl
  | succ n ih =>
    intro l hl c hc
    rcases l with _ | ⟨x, xs⟩
    · simp [chunksOf, chunksOfAux] at hc
    · rw [chunksOf_cons, List.mem_cons] at hc
      rcases hc with hc | hc
      · subst hc; simp [List.length_take]
      · refine ih _ ?_ c hc
        simp only [List.length_drop, List.length_cons] at *
        omega

theorem chunksOf_length_le {α : Type} (K : Nat) (l : List α) :
    ∀ c ∈ chunksOf K l, c.length ≤ K + 1 :=
  chunksOf_length_le_aux K l.length l le_rfl

theorem chunksOf_flatten_aux {α : Type} (K : Nat) :
    ∀ (n : Nat) (l : List α), l.length ≤ n → (chunksOf K l).flatten = l := by
  intro n
  induction n with
  | zero =>
    intro l hl
    rcases l with _ | ⟨x, xs⟩
    · simp [chunksOf, chunksOfAux]
    · simp at hl
  | succ n ih =>
    intro l hl
    rcases l with _ | ⟨x, xs⟩
    · simp [chunksOf, chunksOfAux]
    · rw [chunksOf_cons]
      simp only [List.flatten_cons]
      have hlen : ((x :: xs).drop (K + 1)).length ≤ n := by
        simp only [List.length_drop, List.length_cons]
        simp only [List.length_cons] at hl
        omega
      rw [ih ((x :: xs).drop (K + 1)) hlen]
      exact List.take_append_drop _ _

theorem chunksOf_flatten {α : Type} (K : Nat) (l : List α) :
    (chunksOf K l).flatten = l :=
  chunksOf_flatten_aux K l.length l le_rfl

theorem chunksOf_ne_nil_aux {α : Type} (K : Nat) :
    ∀ (n : Nat) (l : List α), l.length ≤ n → ∀ c ∈ chunksOf K l, c ≠ [] := by
  intro n
  induction n with
  | zero =>
    intro l hl c hc
    rcases l with _ | ⟨x, xs⟩
    · simp [chunksOf, chunksOfAux] at hc
    · simp at hl
  | succ n ih =>
    intro l hl c hc
    rcases l with _ | ⟨x, xs⟩
    · simp [chunksOf, chunksOfAux] at hc
    · rw [chunksOf_cons, List.mem_cons] at hc
      rcases hc with hc | hc
      · subst hc; simp
      · refine ih _ ?_ c hc
        simp only [List.length_drop, List.length_cons] at *
        omega

theorem chunksOf_ne_nil {α : Type} (K : Nat) (l : List α) :
    ∀ c ∈ chunksOf K l, c ≠ [] :=
  chunksOf_ne_nil_aux K l.length l le_rfl

/-! ## Claim theorems: run generation and degenerate inputs -/

/-- C5: every run the generator produces has accounted serialized size
(record count times `NUMBER_SIZE`) at most the budget, except that a lone
record is admitted by itself when even a single record overflows the budget;
the runs partition the input (no loss, duplication or fabrication), and each
run is internally sorted ascending. -/
theorem C5_run_generation (numbers : List Int) (B : Nat) :
    (∀ r ∈ generate_runs numbers B,
        NUMBER_SIZE * r.length ≤ B ∨ (r.length = 1 ∧ B < NUMBER_SIZE)) ∧
    ((generate_runs numbers B).flatten).Perm numbers ∧
    (∀ r ∈ generate_runs numbers B, List.Sorted (· ≤ ·) r) := by
  refine ⟨?_, generate_runs_flatten_perm numbers B, generate_runs_sorted numbers B⟩
  intro r hr
  simp only [generate_runs, List.mem_map] at hr
  obtain ⟨s, hs, rfl⟩ := hr
  have hlen : (List.insertionSort (· ≤ ·) s).length = s.length :=
    (List.perm_insertionSort _ s).length_eq
  rw [hlen]
  exact read_numbers_and_divide_size numbers B s hs

/-- C2: on the empty input stream run generation does yield zero runs, but
the merge scheduler then crashes — `os.rename(runs[0], ...)` raises
`IndexError` on the empty frontier — instead of producing an empty output;
evaluated here at the failing input (the program's default configuration,
`memory_limit = 100 * 1024 * 1024`, `block_size = 512`). -/
theorem C2_empty_input_crash :
    (∀ B : Nat, generate_runs [] B = []) ∧
    (∀ (g : List Int → List (List Int)) (K fuel : Nat),
        merge_runs g K fuel [] = none) ∧
    external_merge_sort (fun r => [r]) [] 104857600 512 = none := by
  refine ⟨fun B => rfl, fun g K fuel => ?_, rfl⟩
  cases fuel <;> simp [merge_runs]

/-- C7: for a positive block size (`memory_limit // block_size` raises
`ZeroDivisionError` otherwise, before anything is renamed), a sorted input
small enough to fit within the run-generation budget (one third of the
memory limit) forms a single run equal to the input, the scheduler performs
zero merge passes on a single run (a pass budget of zero already suffices,
the run being renamed directly), and the overall output equals the input. -/
theorem C7_presorted_single_run (g : List Int → List (List Int))
    (numbers : List Int) (m b : Nat) (_hb : 0 < b)
    (h1 : List.Sorted (· ≤ ·) numbers) (h2 : numbers ≠ [])
    (h3 : NUMBER_SIZE * numbers.length ≤ m / 3) :
    generate_runs numbers (m / 3) = [numbers] ∧
    merge_runs g (m / b) 0 [numbers] = some numbers ∧
    external_merge_sort g numbers m b = some numbers := by
  have hgen : generate_runs numbers (m / 3) = [numbers] := by
    unfold generate_runs
    rw [read_numbers_and_divide_single numbers (m / 3) h3 h2]
    simp [List.Sorted.insertionSort_eq h1]
  refine ⟨hgen, ?_, ?_⟩
  · simp [merge_runs]
  · unfold external_merge_sort
    rw [hgen]
    simp [merge_runs]

theorem C7_presorted_single_run_witness :
    0 < 120 ∧
    List.Sorted (· ≤ ·) [(1 : Int), 2, 3] ∧ [(1 : Int), 2, 3] ≠ [] ∧
    NUMBER_SIZE * [(1 : Int), 2, 3].length ≤ 360 / 3 ∧
    external_merge_sort (fun r => [r]) [(1 : Int), 2, 3] 360 120 = some [1, 2, 3] :=
  ⟨by decide, by decide, by decide, by decide,
    (C7_presorted_single_run (fun r => [r]) [(1 : Int), 2, 3] 360 120
      (by decide) (by decide) (by decide) (by decide)).2.2⟩

/-- C6: the fan-in is `K = memory_limit / block_size` by integer division —
`external_merge_sort` hands the merge scheduler exactly that `K` while run
generation receives one third of the memory limit — and every batch sliced
from a frontier has at most `K` runs, so no `merge_K_runs` invocation ever
receives more than `K` input runs. -/
theorem C6_fan_in (g : List Int → List (List Int)) (numbers : List Int)
    (m b : Nat) (hK : 0 < m / b) :
    external_merge_sort g numbers m b =
      merge_runs g (m / b) (numbers.length + 1) (generate_runs numbers (m / 3)) ∧
    (∀ (runs batch : List (List Int)),
        batch ∈ chunksOf (m / b - 1) runs → batch.length ≤ m / b) := by
  refine ⟨rfl, ?_⟩
  intro runs batch hb
  have := chunksOf_length_le (m / b - 1) runs batch hb
  omega

theorem C6_fan_in_witness :
    0 < 360 / 120 ∧
    external_merge_sort (fun r => [r]) [(5 : Int), 3] 360 120 =
      merge_runs (fun r => [r]) (360 / 120) ([(5 : Int), 3].length + 1)
        (generate_runs [(5 : Int), 3] (360 / 3)) :=
  ⟨by decide, (C6_fan_in (fun r => [r]) [(5 : Int), 3] 360 120 (by decide)).1⟩

/-! ## Block reader lemmas -/

theorem rfindNL_append_right (xs : List Char) :
    ∀ (ys : List Char) (j : Nat), rfindNL ys = some j →
      rfindNL (xs ++ ys) = some (xs.length + j) := by
  induction xs with
  | nil => intro ys j h; simpa using h
  | cons c cs ih =>
    intro ys j h
    have h2 := ih ys j h
    simp only [List.cons_append, rfindNL, List.append_eq, h2, List.length_cons]
    congr 1
    omega

theorem rfindNL_append_none (xs : List Char) :
    ∀ (ys : List Char), rfindNL ys = none →
      rfindNL (xs ++ ys) = rfindNL xs := by
  induction xs with
  | nil => intro ys h; simpa using h
  | cons c cs ih =>
    intro ys h
    have h2 := ih ys h
    simp only [List.cons_append, rfindNL, List.append_eq, h2]

theorem rfindNL_eq_none (l : List Char) (h : '\n' ∉ l) : rfindNL l = none := by
  induction l with
  | nil => rfl
  | cons c cs ih =>
    simp only [List.mem_cons, not_or] at h
    have hc : ¬ c = '\n' := fun hcc => h.1 hcc.symm
    simp [rfindNL, ih h.2, hc]

theorem rfindNL_cons_some (T : List Char) (j : Nat) (h : rfindNL T = some j) :
    rfindNL ('\n' :: T) = some (j + 1) := by
  simp [rfindNL, h]

theorem rfindNL_cons_none (T : List Char) (h : rfindNL T = none) :
    rfindNL ('\n' :: T) = some 0 := by
  simp [rfindNL, h]

theorem serializeLines_cons (l : List Char) (ls : List (List Char)) :
    serializeLines (l :: ls) = l ++ '\n' :: serializeLines ls := by
  simp [serializeLines]

theorem serializeLines_append (a b : List (List Char)) :
    serializeLines (a ++ b) = serializeLines a ++ serializeLines b := by
  simp [serializeLines]

theorem serializeLines_ne_nil (ls : List (List Char)) (h : ls ≠ []) :
    serializeLines ls ≠ [] := by
  rcases ls with _ | ⟨l, ls⟩
  · exact absurd rfl h
  · rw [serializeLines_cons]
    simp

theorem serializeLines_length_pos (ls : List (List Char)) (h : ls ≠ []) :
    1 ≤ (serializeLines ls).length := by
  have := serializeLines_ne_nil ls h
  have h2 := List.length_pos.mpr this
  omega

theorem serializeLines_getLast (ls : List (List Char)) (h : ls ≠ []) :
    (serializeLines ls).getLast? = some '\n' := by
  rcases List.eq_nil_or_concat ls with h1 | ⟨L, b, rfl⟩
  · exact absurd h1 h
  · rw [List.concat_eq_append, serializeLines_append]
    have hne : serializeLines [b] ≠ [] := serializeLines_ne_nil [b] (by simp)
    rw [List.getLast?_append_of_ne_nil _ hne]
    have hser : serializeLines [b] = b ++ ['\n'] := by simp [serializeLines]
    rw [hser]
    exact List.getLast?_concat b

theorem greedyTake_append :
    ∀ (ls : List (List Char)) (S : Nat),
      (greedyTake S ls).1 ++ (greedyTake S ls).2 = ls := by
  intro ls
  induction ls with
  | nil => intro S; rfl
  | cons l ls ih =>
    intro S
    by_cases h : l.length + 1 ≤ S
    · simp [greedyTake, h, ih]
    · simp [greedyTake, h]

theorem greedyTake_fst_length :
    ∀ (ls : List (List Char)) (S : Nat),
      (serializeLines (greedyTake S ls).1).length ≤ S := by
  intro ls
  induction ls with
  | nil => intro S; simp [greedyTake, serializeLines]
  | cons l ls ih =>
    intro S
    by_cases h : l.length + 1 ≤ S
    · have h2 := ih (S - (l.length + 1))
      simp only [greedyTake, h, if_pos]
      rw [serializeLines_cons]
      simp only [List.length_append, List.length_cons]
      omega
    · simp [greedyTake, h, serializeLines]

theorem greedyTake_fst_ne_nil (l : List Char) (ls : List (List Char)) (S : Nat)
    (h : l.length + 1 ≤ S) : (greedyTake S (l :: ls)).1 ≠ [] := by
  simp [greedyTake, h]

theorem rfindNL_take_serialize_none (ls : List (List Char)) (S : Nat)
    (hw : ∀ l ∈ ls, '\n' ∉ l) (hg : (greedyTake S ls).1 = []) :
    rfindNL ((serializeLines ls).take S) = none := by
  rcases ls with _ | ⟨l, ls⟩
  · simp [serializeLines, rfindNL]
  · by_cases h : l.length + 1 ≤ S
    · exact absurd hg (greedyTake_fst_ne_nil l ls S h)
    · rw [serializeLines_cons, List.take_append_eq_append_take]
      have hSl : S - l.length = 0 := by omega
      rw [hSl]
      simp only [List.take_zero, List.append_nil]
      apply rfindNL_eq_none
      intro hmem
      exact (hw l (by simp)) (List.take_subset S l hmem)

theorem rfindNL_take_serialize_some :
    ∀ (ls : List (List Char)) (S : Nat), (∀ l ∈ ls, '\n' ∉ l) →
      (greedyTake S ls).1 ≠ [] →
      rfindNL ((serializeLines ls).take S) =
        some ((serializeLines (greedyTake S ls).1).length - 1) := by
  intro ls
  induction ls with
  | nil => intro S _ hg; exact absurd rfl hg
  | cons l ls ih =>
    intro S hw hg
    by_cases hfit : l.length + 1 ≤ S
    · have hgeq : greedyTake S (l :: ls) =
          (l :: (greedyTake (S - (l.length + 1)) ls).1,
            (greedyTake (S - (l.length + 1)) ls).2) := by
        simp [greedyTake, hfit]
      rw [serializeLines_cons, List.take_append_eq_append_take]
      rw [List.take_of_length_le (by omega : l.length ≤ S)]
      have hS1 : S - l.length = (S - (l.length + 1)) + 1 := by omega
      rw [hS1, List.take_succ_cons]
      by_cases hg' : (greedyTake (S - (l.length + 1)) ls).1 = []
      · have h1 : rfindNL ((serializeLines ls).take (S - (l.length + 1))) = none :=
          rfindNL_take_serialize_none ls _ (fun x hx => hw x (by simp [hx])) hg'
        have h2 := rfindNL_cons_none _ h1
        rw [rfindNL_append_right l _ 0 h2, hgeq]
        rw [serializeLines_cons]
        simp [hg', serializeLines]
      · have h1 := ih (S - (l.length + 1)) (fun x hx => hw x (by simp [hx])) hg'
        have h2 := rfindNL_cons_some _ _ h1
        rw [rfindNL_append_right l _ _ h2, hgeq]
        rw [serializeLines_cons]
        have hpos : 1 ≤ (serializeLines (greedyTake (S - (l.length + 1)) ls).1).length :=
          serializeLines_length_pos _ hg'
        simp only [List.length_append, List.length_cons]
        congr 1
        omega
    · have : (greedyTake S (l :: ls)).1 = [] := by simp [greedyTake, hfit]
      exact absurd this hg

theorem rfindNL_of_getLast (rest : List Char) (S : Nat) (hne : rest.take S ≠ [])
    (hlast : (rest.take S).getLast? = some '\n') :
    rfindNL (rest.take S) = some ((rest.take S).length - 1) := by
  obtain ⟨Q, hQ⟩ : ∃ Q, rest.take S = Q ++ ['\n'] := by
    rcases List.eq_nil_or_concat (rest.take S) with h1 | ⟨L, b, hL⟩
    · exact absurd h1 hne
    · rw [List.concat_eq_append] at hL
      rw [hL, List.getLast?_concat] at hlast
      have hb := Option.some.inj hlast
      exact ⟨L, by rw [hL, hb]⟩
  rw [hQ, rfindNL_append_right Q ['\n'] 0 rfl]
  simp

theorem read_blocks_step_of_rfind_some (S : Nat) (rest : List Char) (j : Nat)
    (hne : rest.take S ≠ []) (hfind : rfindNL (rest.take S) = some j) :
    read_blocks_step S rest =
      some ((rest.take S).take (j + 1), rest.drop (j + 1)) := by
  unfold read_blocks_step
  simp only [hne, if_neg, if_false, hfind]
  by_cases hlast : (rest.take S).getLast? = some '\n'
  · rw [if_pos hlast]
    have hj := rfindNL_of_getLast rest S hne hlast
    rw [hfind] at hj
    have hjval : j = (rest.take S).length - 1 := Option.some.inj hj
    have hpos : 1 ≤ (rest.take S).length := by
      have := List.length_pos.mpr hne
      omega
    have hminlen : (rest.take S).length = min S rest.length := List.length_take S rest
    have htk : (rest.take S).take (j + 1) = rest.take S := by
      apply List.take_of_length_le
      omega
    have hdrop : rest.drop S = rest.drop (j + 1) := by
      by_cases hSr : rest.length ≤ S
      · rw [List.drop_eq_nil_of_le hSr, List.drop_eq_nil_of_le (by omega)]
      · have hj1 : j + 1 = S := by omega
        rw [hj1]
    rw [htk, hdrop]
  · rw [if_neg hlast]

theorem read_blocks_step_of_rfind_none (S : Nat) (rest : List Char)
    (hne : rest.take S ≠ []) (hfind : rfindNL (rest.take S) = none) :
    read_blocks_step S rest = some ([], rest) := by
  unfold read_blocks_step
  simp only [hne, if_neg, if_false, hfind]
  by_cases hlast : (rest.take S).getLast? = some '\n'
  · have hj := rfindNL_of_getLast rest S hne hlast
    rw [hfind] at hj
    cases hj
  · rw [if_neg hlast]

theorem read_blocks_step_serialize (S : Nat) (l : List Char)
    (ls : List (List Char)) (hw : ∀ x ∈ l :: ls, '\n' ∉ x)
    (hfit : l.length + 1 ≤ S) :
    read_blocks_step S (serializeLines (l :: ls)) =
      some (serializeLines (greedyTake S (l :: ls)).1,
            serializeLines (greedyTake S (l :: ls)).2) := by
  have hne : (serializeLines (l :: ls)).take S ≠ [] := by
    apply List.length_pos.mp
    rw [List.length_take]
    have h1 := serializeLines_length_pos (l :: ls) (by simp)
    omega
  have hgne : (greedyTake S (l :: ls)).1 ≠ [] := greedyTake_fst_ne_nil l ls S hfit
  have hfind := rfindNL_take_serialize_some (l :: ls) S hw hgne
  have hsplit : serializeLines (l :: ls) =
      serializeLines (greedyTake S (l :: ls)).1 ++
        serializeLines (greedyTake S (l :: ls)).2 := by
    conv_lhs => rw [← greedyTake_append (l :: ls) S]
    exact serializeLines_append _ _
  have hpos : 1 ≤ (serializeLines (greedyTake S (l :: ls)).1).length :=
    serializeLines_length_pos _ hgne
  have hlen : (serializeLines (greedyTake S (l :: ls)).1).length ≤ S :=
    greedyTake_fst_length (l :: ls) S
  rw [read_blocks_step_of_rfind_some S _ _ hne hfind]
  have hsome : (serializeLines (greedyTake S (l :: ls)).1).length - 1 + 1 =
      (serializeLines (greedyTake S (l :: ls)).1).length := by omega
  rw [hsome]
  have h1 : ((serializeLines (l :: ls)).take S).take
        ((serializeLines (greedyTake S (l :: ls)).1).length) =
      serializeLines (greedyTake S (l :: ls)).1 := by
    rw [List.take_take, min_eq_left hlen]
    conv_lhs => rw [hsplit]
    exact List.take_left _ _
  have h2 : (serializeLines (l :: ls)).drop
        ((serializeLines (greedyTake S (l :: ls)).1).length) =
      serializeLines (greedyTake S (l :: ls)).2 := by
    conv_lhs => rw [hsplit]
    exact List.drop_left _ _
  rw [h1, h2]

theorem read_blocks_total_aux (S : Nat) :
    ∀ (n : Nat) (ls : List (List Char)), ls.length ≤ n →
      (∀ l ∈ ls, wfLine l ∧ l.length + 1 ≤ S) →
      ∃ P : List (List (List Char)),
        ReadBlocksTo S (serializeLines ls) (P.map serializeLines) ∧
        P.flatten = ls ∧
        (∀ b ∈ P.map serializeLines, b.length ≤ S) ∧
        (∀ p ∈ P, p ≠ []) := by
  intro n
  induction n with
  | zero =>
    intro ls hl _
    have : ls = [] := List.length_eq_zero.mp (Nat.le_zero.mp hl)
    subst this
    exact ⟨[], ReadBlocksTo.done _ (by simp [read_blocks_step, serializeLines]),
      rfl, by simp, by simp⟩
  | succ n ih =>
    intro ls hl hwf
    rcases ls with _ | ⟨l, ls⟩
    · exact ⟨[], ReadBlocksTo.done _ (by simp [read_blocks_step, serializeLines]),
        rfl, by simp, by simp⟩
    · have hfit : l.length + 1 ≤ S := (hwf l (by simp)).2
      have hw : ∀ x ∈ l :: ls, '\n' ∉ x := fun x hx => ((hwf x hx).1).2
      have hstep := read_blocks_step_serialize S l ls hw hfit
      set A := (greedyTake S (l :: ls)).1 with hA
      set B := (greedyTake S (l :: ls)).2 with hB
      have hAB : A ++ B = l :: ls := greedyTake_append (l :: ls) S
      have hAne : A ≠ [] := greedyTake_fst_ne_nil l ls S hfit
      have hBlen : B.length ≤ n := by
        have h1 : A.length + B.length = ls.length + 1 := by
          rw [← List.length_append, hAB]; simp
        have h2 : 1 ≤ A.length := by
          rcases A with _ | _
          · exact absurd rfl hAne
          · simp
        simp only [List.length_cons] at hl
        omega
      have hBwf : ∀ x ∈ B, wfLine x ∧ x.length + 1 ≤ S := by
        intro x hx
        refine hwf x ?_
        rw [← hAB]
        exact List.mem_append_right A hx
      obtain ⟨P, hrb, hfl, hbd, hpn⟩ := ih B hBlen hBwf
      refine ⟨A :: P, ?_, ?_, ?_, ?_⟩
      · exact ReadBlocksTo.step _ _ _ _ hstep hrb
      · simp [hfl, hAB]
      · intro b hb
        rw [List.map_cons, List.mem_cons] at hb
        rcases hb with rfl | hb
        · exact greedyTake_fst_length (l :: ls) S
        · exact hbd b hb
      · intro p hp
        rw [List.mem_cons] at hp
        rcases hp with rfl | hp
        · exact hAne
        · exact hpn p hp

theorem serializeLines_flatten (P : List (List (List Char))) :
    (P.map serializeLines).flatten = serializeLines P.flatten := by
  induction P with
  | nil => rfl
  | cons p P ih => simp [serializeLines_append, ih]

theorem splitNL_append (l : List Char) (cs : List Char) (h : '\n' ∉ l) :
    splitNL (l ++ '\n' :: cs) = l :: splitNL cs := by
  induction l with
  | nil => simp [splitNL]
  | cons c l ih =>
    simp only [List.mem_cons, not_or] at h
    have hc : ¬ c = '\n' := fun hcc => h.1 hcc.symm
    have h2 := ih h.2
    simp [splitNL, List.append_eq, h2, hc]

theorem splitRecs_serializeLines :
    ∀ (ls : List (List Char)), (∀ l ∈ ls, wfLine l) →
      splitRecs (serializeLines ls) = ls := by
  intro ls
  induction ls with
  | nil => intro _; rfl
  | cons l ls ih =>
    intro hw
    have h1 : splitNL (serializeLines (l :: ls)) = l :: splitNL (serializeLines ls) := by
      rw [serializeLines_cons]
      exact splitNL_append l _ ((hw l (by simp)).2)
    unfold splitRecs
    rw [h1, List.filter_cons_of_pos]
    · have ihh := ih (fun x hx => hw x (by simp [hx]))
      unfold splitRecs at ihh
      rw [ihh]
    · have := (hw l (by simp)).1
      simp [List.isEmpty_iff, this]

theorem no_ReadBlocksTo_of_stuck (S : Nat) (s : List Char)
    (hstep : read_blocks_step S s = some ([], s)) :
    ∀ blocks, ¬ ReadBlocksTo S s blocks := by
  intro blocks
  induction blocks with
  | nil =>
    intro h
    cases h with
    | done _ h0 => rw [hstep] at h0; cases h0
  | cons b bs ih =>
    intro h
    cases h with
    | step _ _ rest' _ h0 hrec =>
      rw [hstep] at h0
      have h1 := Option.some.inj h0
      have hrest : s = rest' := congrArg Prod.snd h1
      rw [← hrest] at hrec
      exact ih hrec

/-! ## Claim theorems: block reader -/

/-- C3: when a record's serialized form exceeds the block size, the block
reader does not fail with any `OversizedRecordError` — it loops forever:
every iteration re-reads the same characters, finds no newline, rewinds the
cursor completely and yields an empty block, so the generator never reaches
its `break`.  Shown on the run holding the single record `123` (serialized
length 4) with block size 3: every iteration budget is exhausted yielding
only empty blocks, and no terminating execution exists. -/
theorem C3_oversized_record_stalls :
    3 < (serializeLines [['1', '2', '3']]).length ∧
    (∀ fuel, read_blocks fuel 3 (serializeLines [['1', '2', '3']]) =
        List.replicate fuel []) ∧
    ¬ ∃ blocks, ReadBlocksTo 3 (serializeLines [['1', '2', '3']]) blocks := by
  have hstep : read_blocks_step 3 (serializeLines [['1', '2', '3']]) =
      some ([], serializeLines [['1', '2', '3']]) := by decide
  refine ⟨by decide, ?_, ?_⟩
  · intro fuel
    induction fuel with
    | zero => rfl
    | succ m ih => simp [read_blocks, hstep, ih, List.replicate_succ]
  · rintro ⟨blocks, hb⟩
    exact no_ReadBlocksTo_of_stuck 3 _ hstep blocks hb

/-- C4 fails as stated: for the run holding the single record `10` and block
size 2 — a record whose serialized form exceeds the block size — the block
reader admits no terminating execution at all, so no sequence of yielded
blocks reconstructs the run. -/
theorem C4_block_integrity_counterexample :
    wfLine ['1', '0'] ∧
    ¬ ∃ blocks, ReadBlocksTo 2 (serializeLines [['1', '0']]) blocks := by
  have hstep : read_blocks_step 2 (serializeLines [['1', '0']]) =
      some ([], serializeLines [['1', '0']]) := by decide
  refine ⟨by decide, ?_⟩
  rintro ⟨blocks, hb⟩
  exact no_ReadBlocksTo_of_stuck 2 _ hstep blocks hb

/-- C4 (amended): for any run and any block size `S` large enough that every
record's serialized form (line plus newline) fits in `S`, the block reader
terminates; every raw read and every yielded block is at most `S`
characters; each yielded block is the serialization of a consecutive group
of whole records (no record is split across blocks); and concatenating all
yielded blocks gives back exactly the run file, whose decoding is exactly
the original ordered record sequence. -/
theorem C4_block_integrity (S : Nat) (lines : List (List Char))
    (h : ∀ l ∈ lines, wfLine l ∧ l.length + 1 ≤ S) :
    ∃ (blocks : List (List Char)) (P : List (List (List Char))),
      ReadBlocksTo S (serializeLines lines) blocks ∧
      (∀ b ∈ blocks, b.length ≤ S) ∧
      blocks = P.map serializeLines ∧
      P.flatten = lines ∧
      blocks.flatten = serializeLines lines ∧
      splitRecs blocks.flatten = lines := by
  obtain ⟨P, hrb, hfl, hbd, _⟩ := read_blocks_total_aux S lines.length lines le_rfl h
  refine ⟨P.map serializeLines, P, hrb, hbd, rfl, hfl, ?_, ?_⟩
  · rw [serializeLines_flatten, hfl]
  · rw [serializeLines_flatten, hfl]
    exact splitRecs_serializeLines lines (fun l hl => (h l hl).1)

theorem C4_block_integrity_witness :
    (∀ l ∈ [['1'], ['2', '3'], ['4']], wfLine l ∧ l.length + 1 ≤ 4) ∧
    ∃ (blocks : List (List Char)) (P : List (List (List Char))),
      ReadBlocksTo 4 (serializeLines [['1'], ['2', '3'], ['4']]) blocks ∧
      (∀ b ∈ blocks, b.length ≤ 4) ∧
      blocks = P.map serializeLines ∧
      P.flatten = [['1'], ['2', '3'], ['4']] ∧
      blocks.flatten = serializeLines [['1'], ['2', '3'], ['4']] ∧
      splitRecs blocks.flatten = [['1'], ['2', '3'], ['4']] :=
  ⟨by decide, C4_block_integrity 4 [['1'], ['2', '3'], ['4']] (by decide)⟩

/-! ## Heap order and pop lemmas -/

theorem lexLe_refl (a : Int × Nat) : lexLe a a := by
  unfold lexLe; omega

theorem lexLe_trans {a b c : Int × Nat} (h1 : lexLe a b) (h2 : lexLe b c) :
    lexLe a c := by
  unfold lexLe at *; omega

theorem lexLe_total (a b : Int × Nat) : lexLe a b ∨ lexLe b a := by
  unfold lexLe; omega

theorem lexLe_antisymm {a b : Int × Nat} (h1 : lexLe a b) (h2 : lexLe b a) :
    a = b := by
  obtain ⟨a1, a2⟩ := a
  obtain ⟨b1, b2⟩ := b
  unfold lexLe at *
  simp only [Prod.mk.injEq]
  constructor <;> omega

theorem lexLe_of_not (a b : Int × Nat) (h : ¬ lexLe a b) : lexLe b a := by
  rcases lexLe_total a b with h1 | h1
  · exact absurd h1 h
  · exact h1

theorem lexLe_fst {a b : Int × Nat} (h : lexLe a b) : a.1 ≤ b.1 := by
  unfold lexLe at h; omega

theorem lexLe_of_le (v w : Int) (i : Nat) (h : v ≤ w) : lexLe (v, i) (w, i) := by
  unfold lexLe; simp; omega

theorem popMin_eq_none : ∀ (h : List (Int × Nat)), popMin h = none → h = [] := by
  intro h hp
  cases h with
  | nil => rfl
  | cons e es =>
    cases hes : popMin es with
    | none =>
      have hp2 : popMin (e :: es) = some (e, []) := by
        unfold popMin; rw [hes]
      rw [hp2] at hp; cases hp
    | some p =>
      obtain ⟨m, rest⟩ := p
      have hp2 : popMin (e :: es) =
          if lexLe e m then some (e, es) else some (m, e :: rest) := by
        unfold popMin; rw [hes]
      rw [hp2] at hp
      by_cases hle : lexLe e m
      · rw [if_pos hle] at hp; cases hp
      · rw [if_neg hle] at hp; cases hp

theorem popMin_spec :
    ∀ (h : List (Int × Nat)) (m : Int × Nat) (rest : List (Int × Nat)),
      popMin h = some (m, rest) →
      h.Perm (m :: rest) ∧ ∀ e ∈ h, lexLe m e := by
  intro h
  induction h with
  | nil => intro m rest hp; cases hp
  | cons e es ih =>
    intro m rest hp
    cases hes : popMin es with
    | none =>
      have hp2 : popMin (e :: es) = some (e, []) := by
        unfold popMin; rw [hes]
      rw [hp2] at hp
      have hese : es = [] := popMin_eq_none es hes
      subst hese
      have h1 := Option.some.inj hp
      have hm : e = m := congrArg Prod.fst h1
      have hr : ([] : List (Int × Nat)) = rest := congrArg Prod.snd h1
      subst hm
      rw [← hr]
      exact ⟨List.Perm.refl _, by
        intro x hx
        rw [List.mem_singleton] at hx
        subst hx
        exact lexLe_refl _⟩
    | some p =>
      obtain ⟨m', rest'⟩ := p
      have hp2 : popMin (e :: es) =
          if lexLe e m' then some (e, es) else some (m', e :: rest') := by
        unfold popMin; rw [hes]
      rw [hp2] at hp
      obtain ⟨hperm', hle'⟩ := ih m' rest' hes
      by_cases hle : lexLe e m'
      · rw [if_pos hle] at hp
        have h1 := Option.some.inj hp
        have hm : e = m := congrArg Prod.fst h1
        have hr : es = rest := congrArg Prod.snd h1
        subst hm; subst hr
        refine ⟨List.Perm.refl _, ?_⟩
        intro x hx
        rw [List.mem_cons] at hx
        rcases hx with rfl | hx
        · exact lexLe_refl x
        · exact lexLe_trans hle (hle' x hx)
      · rw [if_neg hle] at hp
        have h1 := Option.some.inj hp
        have hm : m' = m := congrArg Prod.fst h1
        have hr : e :: rest' = rest := congrArg Prod.snd h1
        subst hm; subst hr
        refine ⟨?_, ?_⟩
        · exact (List.Perm.cons e hperm').trans (List.Perm.swap m' e rest')
        · intro x hx
          rw [List.mem_cons] at hx
          rcases hx with rfl | hx
          · exact lexLe_of_not x m' (fun hc => hle hc)
          · exact hle' x hx

/-! ## Merge state bookkeeping -/

theorem perm_middle_exchange {α : Type} (a b c : List α) :
    (a ++ (b ++ c)).Perm (b ++ (a ++ c)) := by
  have h1 : a ++ (b ++ c) = (a ++ b) ++ c := (List.append_assoc a b c).symm
  have h2 : (b ++ a) ++ c = b ++ (a ++ c) := List.append_assoc b a c
  rw [h1, ← h2]
  exact List.perm_append_comm.append_right c

theorem flatten_range_extract {α : Type} (i : Nat) (f : Nat → List α) :
    ∀ (k : Nat), i < k →
      (((List.range k).map f).flatten).Perm
        (f i ++ ((List.range k).map
          (fun j => if j = i then [] else f j)).flatten) := by
  intro k
  induction k with
  | zero => intro hi; omega
  | succ k ih =>
    intro hi
    rw [List.range_succ]
    by_cases hik : i = k
    · subst hik
      have hcong : (List.range i).map (fun j => if j = i then [] else f j) =
          (List.range i).map f := by
        apply List.map_congr_left
        intro j hj
        rw [List.mem_range] at hj
        rw [if_neg (by omega)]
      simp only [List.map_append, List.flatten_append, List.map_cons,
        List.map_nil, List.flatten_cons, List.flatten_nil, List.append_nil,
        if_pos, hcong, List.nil_append]
      exact List.perm_append_comm
    · have hik2 : i < k := by omega
      have hfk : (if k = i then ([] : List α) else f k) = f k :=
        if_neg (fun hc => hik hc.symm)
      simp only [List.map_append, List.flatten_append, List.map_cons,
        List.map_nil, List.flatten_cons, List.flatten_nil, List.append_nil, hfk]
      refine ((ih hik2).append_right (f k)).trans ?_
      rw [List.append_assoc]

theorem zeroed_congr {α : Type} (k i : Nat) (f g : Nat → List α)
    (h : ∀ j < k, j ≠ i → f j = g j) :
    (List.range k).map (fun j => if j = i then [] else f j) =
      (List.range k).map (fun j => if j = i then [] else g j) := by
  apply List.map_congr_left
  intro j hj
  rw [List.mem_range] at hj
  by_cases hji : j = i
  · simp [hji]
  · rw [if_neg hji, if_neg hji, h j hj hji]

theorem getD_set_self {α : Type} (l : List α) (i : Nat) (x d : α)
    (h : i < l.length) : (l.set i x).getD i d = x := by
  rw [List.getD_eq_getElem?_getD, List.getElem?_set_self h]
  rfl

theorem getD_set_ne {α : Type} (l : List α) (i j : Nat) (x d : α)
    (h : i ≠ j) : (l.set i x).getD j d = l.getD j d := by
  rw [List.getD_eq_getElem?_getD, List.getElem?_set_ne h,
    ← List.getD_eq_getElem?_getD]

theorem runRem_set_blocks_ne (blocks : List (List Int))
    (readers : List (List (List Int))) (i j : Nat) (xs : List Int)
    (h : i ≠ j) : runRem (blocks.set i xs) readers j = runRem blocks readers j := by
  unfold runRem
  rw [getD_set_ne _ _ _ _ _ h]

theorem runRem_set_both_ne (blocks : List (List Int))
    (readers : List (List (List Int))) (i j : Nat) (xs : List Int)
    (bs : List (List Int)) (h : i ≠ j) :
    runRem (blocks.set i xs) (readers.set i bs) j = runRem blocks readers j := by
  unfold runRem
  rw [getD_set_ne _ _ _ _ _ h, getD_set_ne _ _ _ _ _ h]

theorem runRem_set_blocks_self (blocks : List (List Int))
    (readers : List (List (List Int))) (i : Nat) (xs : List Int)
    (h : i < blocks.length) :
    runRem (blocks.set i xs) readers i = xs ++ (readers.getD i []).flatten := by
  unfold runRem
  rw [getD_set_self _ _ _ _ h]

theorem runRem_set_both_self (blocks : List (List Int))
    (readers : List (List (List Int))) (i : Nat) (xs : List Int)
    (bs : List (List Int)) (hb : i < blocks.length) (hr : i < readers.length) :
    runRem (blocks.set i xs) (readers.set i bs) i = xs ++ bs.flatten := by
  unfold runRem
  rw [getD_set_self _ _ _ _ hb, getD_set_self _ _ _ _ hr]

theorem tagRun_cons (i : Nat) (x : Int) (l : List Int) :
    tagRun i (x :: l) = (x, i) :: tagRun i l := rfl

theorem stateRem_step (k i : Nat) (hi : i < k) (x v : Int)
    (blocks blocks' : List (List Int))
    (readers readers' : List (List (List Int)))
    (heap heap' : List (Int × Nat))
    (hoff : ∀ j < k, j ≠ i → runRem blocks' readers' j = runRem blocks readers j)
    (hat : runRem blocks readers i = x :: runRem blocks' readers' i)
    (hh : heap.Perm ((v, i) :: heap')) :
    (stateRem k blocks readers heap).Perm
      ((v, i) :: stateRem k blocks' readers' (heap' ++ [(x, i)])) := by
  have hF := flatten_range_extract i (fun j => tagRun j (runRem blocks readers j)) k hi
  have hF' := flatten_range_extract i (fun j => tagRun j (runRem blocks' readers' j)) k hi
  have hG : (List.range k).map
        (fun j => if j = i then [] else tagRun j (runRem blocks' readers' j)) =
      (List.range k).map
        (fun j => if j = i then [] else tagRun j (runRem blocks readers j)) :=
    zeroed_congr k i _ _ (fun j hj hji => by rw [hoff j hj hji])
  have hfi : tagRun i (runRem blocks readers i) =
      (x, i) :: tagRun i (runRem blocks' readers' i) := by
    rw [hat]
    exact tagRun_cons i x _
  rw [hG] at hF'
  simp only at hF hF'
  rw [hfi] at hF
  unfold stateRem
  have stepA := hh.append hF
  refine stepA.trans ?_
  refine List.Perm.cons (v, i) ?_
  have stepB : ((heap' ++ [(x, i)]) ++
        ((List.range k).map
          (fun j => tagRun j (runRem blocks' readers' j))).flatten).Perm
      (heap' ++ ((x, i) ::
        (tagRun i (runRem blocks' readers' i) ++
          ((List.range k).map (fun j => if j = i then [] else
            tagRun j (runRem blocks readers j))).flatten))) := by
    rw [List.append_assoc]
    refine List.Perm.append_left heap' ?_
    exact List.Perm.cons (x, i) hF'
  exact stepB.symm

theorem stateRem_step_noref (k i : Nat) (v : Int)
    (blocks : List (List Int)) (readers : List (List (List Int)))
    (heap heap' : List (Int × Nat))
    (hh : heap.Perm ((v, i) :: heap')) :
    (stateRem k blocks readers heap).Perm
      ((v, i) :: stateRem k blocks readers heap') := by
  unfold stateRem
  exact hh.append_right _

theorem popMin_min_stateRem (k : Nat) (readers : List (List (List Int)))
    (blocks : List (List Int)) (heap heap' : List (Int × Nat)) (v : Int)
    (i : Nat) (hinv : MergeInv k readers blocks heap)
    (hp : popMin heap = some ((v, i), heap')) :
    ∀ e ∈ stateRem k blocks readers heap, lexLe (v, i) e := by
  obtain ⟨hrl, hbl, hdist, hlt, hsort, hexh, hblk⟩ := hinv
  obtain ⟨hperm, hmin⟩ := popMin_spec heap _ _ hp
  intro e he
  unfold stateRem at he
  rw [List.mem_append] at he
  rcases he with he | he
  · exact hmin e he
  · rw [List.mem_flatten] at he
    obtain ⟨l, hl, hel⟩ := he
    rw [List.mem_map] at hl
    obtain ⟨j, hj, rfl⟩ := hl
    rw [List.mem_range] at hj
    unfold tagRun at hel
    rw [List.mem_map] at hel
    obtain ⟨u, hu, rfl⟩ := hel
    by_cases hent : ∃ w, (w, j) ∈ heap
    · obtain ⟨w, hw⟩ := hent
      have h1 : lexLe (v, i) (w, j) := hmin _ hw
      have h2 : List.Sorted (· ≤ ·) (w :: runRem blocks readers j) := hsort _ hw
      have h3 : w ≤ u := (List.sorted_cons.mp h2).1 u hu
      exact lexLe_trans h1 (lexLe_of_le w u j h3)
    · have hno : ∀ e' ∈ heap, e'.2 ≠ j := by
        intro e' he' hcon
        refine hent ⟨e'.1, ?_⟩
        have heq : (e'.1, j) = e' := by rw [← hcon]
        rw [heq]
        exact he'
      have hz := hexh j hj hno
      rw [hz] at hu
      cases hu

theorem getElem?_eq_some_getD {α : Type} (l : List α) (i : Nat) (d : α)
    (h : i < l.length) : l[i]? = some (l.getD i d) := by
  rw [List.getD_eq_getElem?_getD, List.getElem?_eq_getElem h]
  rfl

theorem pairwise_ne_perm {l l' : List (Int × Nat)} (hp : l.Perm l')
    (h : List.Pairwise (fun a b => a.2 ≠ b.2) l) :
    List.Pairwise (fun a b => a.2 ≠ b.2) l' := by
  exact (hp.pairwise_iff (fun hab => Ne.symm hab)).mp h

theorem heap_push_facts (heap heap' : List (Int × Nat)) (v x : Int) (i : Nat)
    (hperm : heap.Perm ((v, i) :: heap'))
    (hdist : List.Pairwise (fun a b => a.2 ≠ b.2) heap) :
    (∀ e ∈ heap', e ∈ heap) ∧ (∀ e ∈ heap', e.2 ≠ i) ∧
    List.Pairwise (fun a b => a.2 ≠ b.2) (heap' ++ [(x, i)]) ∧
    (∀ e ∈ heap' ++ [(x, i)], e ∈ heap' ∨ e = (x, i)) := by
  have hdist2 := pairwise_ne_perm hperm hdist
  rw [List.pairwise_cons] at hdist2
  have hno_i : ∀ e ∈ heap', e.2 ≠ i := by
    intro e he hc
    exact (hdist2.1 e he) hc.symm
  refine ⟨?_, hno_i, ?_, ?_⟩
  · intro e he
    exact hperm.symm.subset (List.mem_cons_of_mem _ he)
  · rw [List.pairwise_append]
    refine ⟨hdist2.2, List.pairwise_singleton _ _, ?_⟩
    intro a ha b hb
    rw [List.mem_singleton] at hb
    subst hb
    exact hno_i a ha
  · intro e he
    rw [List.mem_append, List.mem_singleton] at he
    exact he

theorem hexh_transfer (heap heap' : List (Int × Nat)) (v : Int) (i j : Nat)
    (hperm : heap.Perm ((v, i) :: heap')) (hji : j ≠ i)
    (hno : ∀ e ∈ heap', e.2 ≠ j) :
    ∀ e ∈ heap, e.2 ≠ j := by
  intro e he
  have h2 : e ∈ (v, i) :: heap' := hperm.subset he
  rcases List.mem_cons.mp h2 with rfl | h3
  · exact fun hc => hji hc.symm
  · exact hno e h3

theorem mergeLoop_conclude (v : Int) (i : Nat)
    (out rem remNew : List (Int × Nat))
    (hstep : rem.Perm ((v, i) :: remNew))
    (houtperm : out.Perm remNew) (houtsort : List.Sorted lexLe out)
    (hminall : ∀ e ∈ rem, lexLe (v, i) e) :
    ((v, i) :: out).Perm rem ∧ List.Sorted lexLe ((v, i) :: out) := by
  constructor
  · exact (houtperm.cons (v, i)).trans hstep.symm
  · rw [List.sorted_cons]
    refine ⟨?_, houtsort⟩
    intro b hb
    have hb2 : b ∈ (v, i) :: remNew := List.mem_cons_of_mem _ (houtperm.subset hb)
    exact hminall b (hstep.symm.subset hb2)

theorem mergeLoop_spec :
    ∀ (fuel k : Nat) (readers : List (List (List Int)))
      (blocks : List (List Int)) (heap : List (Int × Nat)),
      MergeInv k readers blocks heap →
      (stateRem k blocks readers heap).length < fuel →
      ∃ out, mergeLoop fuel readers blocks heap = some out ∧
        out.Perm (stateRem k blocks readers heap) ∧
        List.Sorted lexLe out := by
  intro fuel
  induction fuel with
  | zero => intro k readers blocks heap _ hf; omega
  | succ fuel ih =>
    intro k readers blocks heap hinv hf
    cases hp : popMin heap with
    | none =>
      have hheap : heap = [] := popMin_eq_none heap hp
      subst hheap
      have hrem : stateRem k blocks readers [] = [] := by
        unfold stateRem
        rw [List.nil_append, List.flatten_eq_nil_iff]
        intro l hl
        rw [List.mem_map] at hl
        obtain ⟨j, hj, rfl⟩ := hl
        rw [List.mem_range] at hj
        have hz := hinv.2.2.2.2.2.1 j hj (by intro e he; cases he)
        rw [hz]
        rfl
      refine ⟨[], by simp [mergeLoop, hp], by rw [hrem], List.sorted_nil⟩
    | some p =>
      obtain ⟨⟨v, i⟩, heap'⟩ := p
      obtain ⟨hrl, hbl, hdist, hlt, hsort, hexh, hblk⟩ := hinv
      obtain ⟨hperm, hmin⟩ := popMin_spec heap _ _ hp
      have hvi_mem : (v, i) ∈ heap := hperm.symm.subset (List.mem_cons_self _ _)
      have hik : i < k := hlt _ hvi_mem
      have hib : i < blocks.length := by omega
      have hir : i < readers.length := by omega
      have hq : blocks[i]? = some (blocks.getD i []) :=
        getElem?_eq_some_getD _ _ _ hib
      have hminall := popMin_min_stateRem k readers blocks heap heap' v i
        ⟨hrl, hbl, hdist, hlt, hsort, hexh, hblk⟩ hp
      cases hqd : blocks.getD i [] with
      | cons x xs =>
        rw [hqd] at hq
        obtain ⟨hsub, hno_i, hdist'', hmem''⟩ :=
          heap_push_facts heap heap' v x i hperm hdist
        have hoff : ∀ j < k, j ≠ i →
            runRem (blocks.set i xs) readers j = runRem blocks readers j :=
          fun j _ hji => runRem_set_blocks_ne blocks readers i j xs (Ne.symm hji)
        have hat : runRem blocks readers i =
            x :: runRem (blocks.set i xs) readers i := by
          unfold runRem
          rw [hqd, getD_set_self _ _ _ _ hib]
          rfl
        have hstep := stateRem_step k i hik x v blocks (blocks.set i xs)
          readers readers heap heap' hoff hat hperm
        have hinv' : MergeInv k readers (blocks.set i xs) (heap' ++ [(x, i)]) := by
          refine ⟨hrl, by simp [hbl], hdist'', ?_, ?_, ?_, hblk⟩
          · intro e he
            rcases hmem'' e he with he2 | rfl
            · exact hlt e (hsub e he2)
            · exact hik
          · intro e he
            rcases hmem'' e he with he2 | rfl
            · rw [runRem_set_blocks_ne blocks readers i e.2 xs
                (Ne.symm (hno_i e he2))]
              exact hsort e (hsub e he2)
            · rw [runRem_set_blocks_self blocks readers i xs hib]
              have hs := hsort (v, i) hvi_mem
              unfold runRem at hs
              rw [hqd] at hs
              exact (List.sorted_cons.mp hs).2
          · intro j hj hno
            have hji : j ≠ i := by
              intro hc
              exact hno (x, i) (by simp) (by rw [hc])
            rw [runRem_set_blocks_ne blocks readers i j xs (Ne.symm hji)]
            refine hexh j hj ?_
            refine hexh_transfer heap heap' v i j hperm hji ?_
            intro e he
            exact hno e (List.mem_append_left _ he)
        have hf' : (stateRem k (blocks.set i xs) readers
            (heap' ++ [(x, i)])).length < fuel := by
          have hlen := hstep.length_eq
          rw [List.length_cons] at hlen
          omega
        obtain ⟨out, hout, houtperm, houtsort⟩ :=
          ih k readers (blocks.set i xs) (heap' ++ [(x, i)]) hinv' hf'
        refine ⟨(v, i) :: out, ?_, ?_⟩
        · simp only [mergeLoop, hp, hq, hout]
        · exact mergeLoop_conclude v i out _ _ hstep houtperm houtsort hminall
      | nil =>
        rw [hqd] at hq
        have hqr : readers[i]? = some (readers.getD i []) :=
          getElem?_eq_some_getD _ _ _ hir
        cases hrd : readers.getD i [] with
        | nil =>
          rw [hrd] at hqr
          have hdist2 := pairwise_ne_perm hperm hdist
          rw [List.pairwise_cons] at hdist2
          have hno_i : ∀ e ∈ heap', e.2 ≠ i := by
            intro e he hc
            exact (hdist2.1 e he) hc.symm
          have hsub : ∀ e ∈ heap', e ∈ heap :=
            fun e he => hperm.symm.subset (List.mem_cons_of_mem _ he)
          have hstep := stateRem_step_noref k i v blocks readers heap heap' hperm
          have hinv' : MergeInv k readers blocks heap' := by
            refine ⟨hrl, hbl, hdist2.2, ?_, ?_, ?_, hblk⟩
            · intro e he; exact hlt e (hsub e he)
            · intro e he; exact hsort e (hsub e he)
            · intro j hj hno
              by_cases hji : j = i
              · subst hji
                unfold runRem
                rw [hqd, hrd]
                rfl
              · exact hexh j hj (hexh_transfer heap heap' v i j hperm hji hno)
          have hf' : (stateRem k blocks readers heap').length < fuel := by
            have hlen := hstep.length_eq
            rw [List.length_cons] at hlen
            omega
          obtain ⟨out, hout, houtperm, houtsort⟩ :=
            ih k readers blocks heap' hinv' hf'
          refine ⟨(v, i) :: out, ?_, ?_⟩
          · simp only [mergeLoop, hp, hq, hqr, hout]
          · exact mergeLoop_conclude v i out _ _ hstep houtperm houtsort hminall
        | cons b bs =>
          cases hb : b with
          | nil =>
            exfalso
            refine hblk i hik b ?_ hb
            rw [hrd]
            exact List.mem_cons_self _ _
          | cons x xs2 =>
            subst hb
            rw [hrd] at hqr
            obtain ⟨hsub, hno_i, hdist'', hmem''⟩ :=
              heap_push_facts heap heap' v x i hperm hdist
            have hoff : ∀ j < k, j ≠ i →
                runRem (blocks.set i xs2) (readers.set i bs) j =
                  runRem blocks readers j :=
              fun j _ hji =>
                runRem_set_both_ne blocks readers i j xs2 bs (Ne.symm hji)
            have hat : runRem blocks readers i =
                x :: runRem (blocks.set i xs2) (readers.set i bs) i := by
              unfold runRem
              rw [hqd, hrd, getD_set_self _ _ _ _ hib, getD_set_self _ _ _ _ hir]
              simp
            have hstep := stateRem_step k i hik x v blocks (blocks.set i xs2)
              readers (readers.set i bs) heap heap' hoff hat hperm
            have hinv' : MergeInv k (readers.set i bs) (blocks.set i xs2)
                (heap' ++ [(x, i)]) := by
              refine ⟨by simp [hrl], by simp [hbl], hdist'', ?_, ?_, ?_, ?_⟩
              · intro e he
                rcases hmem'' e he with he2 | rfl
                · exact hlt e (hsub e he2)
                · exact hik
              · intro e he
                rcases hmem'' e he with he2 | rfl
                · rw [runRem_set_both_ne blocks readers i e.2 xs2 bs
                    (Ne.symm (hno_i e he2))]
                  exact hsort e (hsub e he2)
                · rw [runRem_set_both_self blocks readers i xs2 bs hib hir]
                  have hs := hsort (v, i) hvi_mem
                  unfold runRem at hs
                  rw [hqd, hrd] at hs
                  exact (List.sorted_cons.mp hs).2
              · intro j hj hno
                have hji : j ≠ i := by
                  intro hc
                  exact hno (x, i) (by simp) (by rw [hc])
                rw [runRem_set_both_ne blocks readers i j xs2 bs (Ne.symm hji)]
                refine hexh j hj ?_
                refine hexh_transfer heap heap' v i j hperm hji ?_
                intro e he
                exact hno e (List.mem_append_left _ he)
              · intro j hj b' hb'
                by_cases hji : j = i
                · subst hji
                  rw [getD_set_self _ _ _ _ hir] at hb'
                  refine hblk j hj b' ?_
                  rw [hrd]
                  exact List.mem_cons_of_mem _ hb'
                · rw [getD_set_ne _ _ _ _ _ (Ne.symm hji)] at hb'
                  exact hblk j hj b' hb'
            have hf' : (stateRem k (blocks.set i xs2) (readers.set i bs)
                (heap' ++ [(x, i)])).length < fuel := by
              have hlen := hstep.length_eq
              rw [List.length_cons] at hlen
              omega
            obtain ⟨out, hout, houtperm, houtsort⟩ :=
              ih k (readers.set i bs) (blocks.set i xs2) (heap' ++ [(x, i)])
                hinv' hf'
            refine ⟨(v, i) :: out, ?_, ?_⟩
            · simp only [mergeLoop, hp, hq, hqr, hout]
            · exact mergeLoop_conclude v i out _ _ hstep houtperm houtsort hminall

/-! ## Seeding and merger lemmas -/

theorem flatten_map_cons_perm {α β : Type} (e : β → α) (t : β → List α) :
    ∀ (L : List β),
      ((L.map (fun j => e j :: t j)).flatten).Perm
        (L.map e ++ (L.map t).flatten) := by
  intro L
  induction L with
  | nil => simp
  | cons j L ih =>
    simp only [List.map_cons, List.flatten_cons]
    refine List.Perm.cons (e j) ?_
    refine (List.Perm.append_left (t j) ih).trans ?_
    exact perm_middle_exchange (t j) (L.map e) _

theorem eq_map_range_getD {α : Type} (l : List α) (d : α) :
    l = (List.range l.length).map (fun j => l.getD j d) := by
  refine List.ext_getElem?_iff.mpr ?_
  intro i
  by_cases hi : i < l.length
  · rw [getElem?_eq_some_getD l i d hi, List.getElem?_map, List.getElem?_range hi]
    rfl
  · rw [List.getElem?_eq_none (by omega),
      List.getElem?_eq_none (by simp; omega)]

theorem map_range_getD {α β : Type} (l : List α) (d : α) (g : α → β) :
    (List.range l.length).map (fun j => g (l.getD j d)) = l.map g := by
  have h1 := congrArg (List.map g) (eq_map_range_getD l d)
  rw [List.map_map] at h1
  exact h1.symm

theorem tagRun_map_fst (i : Nat) (l : List Int) :
    (tagRun i l).map (fun e => e.1) = l := by
  unfold tagRun
  rw [List.map_map]
  exact List.map_id' l

theorem tagRun_length (i : Nat) (l : List Int) :
    (tagRun i l).length = l.length := by
  simp [tagRun]

theorem tagRun_sorted (i : Nat) (l : List Int)
    (h : List.Sorted (· ≤ ·) l) : List.Sorted lexLe (tagRun i l) := by
  unfold tagRun
  exact List.Pairwise.map _ (fun a b hab => lexLe_of_le a b i hab) h

theorem seedAux_spec :
    ∀ (rs : List (List (List Int))) (idx : Nat),
      (∀ r ∈ rs, r ≠ [] ∧ ∀ b ∈ r, b ≠ []) →
      ∃ qs h rds,
        seedAux idx rs = some (qs, h, rds) ∧
        qs.length = rs.length ∧ rds.length = rs.length ∧
        h.length = rs.length ∧
        (∀ j, j < rs.length →
          ∃ x : Int, h[j]? = some (x, idx + j) ∧
            x :: (qs.getD j [] ++ (rds.getD j []).flatten) =
              (rs.getD j []).flatten) ∧
        (∀ j, j < rs.length → ∀ b ∈ rds.getD j [], b ≠ []) := by
  intro rs
  induction rs with
  | nil =>
    intro idx _
    exact ⟨[], [], [], rfl, rfl, rfl, rfl,
      by intro j hj; simp at hj, by intro j hj; simp at hj⟩
  | cons r rs ih =>
    intro idx H
    obtain ⟨hr_ne, hr_blocks⟩ := H r (by simp)
    rcases r with _ | ⟨b, bs⟩
    · exact absurd rfl hr_ne
    rcases b with _ | ⟨x, xs⟩
    · exact absurd rfl (hr_blocks [] (List.mem_cons_self _ _))
    obtain ⟨qs, h, rds, hseed, hlq, hlr, hlh, hpos, hblk⟩ :=
      ih (idx + 1) (fun r' hr' => H r' (List.mem_cons_of_mem _ hr'))
    refine ⟨xs :: qs, (x, idx) :: h, bs :: rds, ?_, by simp [hlq],
      by simp [hlr], by simp [hlh], ?_, ?_⟩
    · unfold seedAux
      rw [hseed]
    · intro j hj
      cases j with
      | zero =>
        refine ⟨x, by simp, ?_⟩
        simp [List.getD_cons_zero]
      | succ j =>
        simp only [List.length_cons] at hj
        obtain ⟨x', hx1, hx2⟩ := hpos j (by omega)
        refine ⟨x', ?_, ?_⟩
        · rw [List.getElem?_cons_succ]
          have harith : idx + (j + 1) = (idx + 1) + j := by omega
          rw [harith]
          exact hx1
        · simp only [List.getD_cons_succ]
          exact hx2
    · intro j hj b' hb'
      cases j with
      | zero =>
        simp only [List.getD_cons_zero] at hb'
        exact hr_blocks b' (List.mem_cons_of_mem _ hb')
      | succ j =>
        simp only [List.length_cons] at hj
        simp only [List.getD_cons_succ] at hb'
        exact hblk j (by omega) b' hb'

theorem merge_K_runs_tagged_spec (rs : List (List (List Int)))
    (H : ∀ r ∈ rs, r ≠ [] ∧ (∀ b ∈ r, b ≠ []) ∧
      List.Sorted (· ≤ ·) r.flatten) :
    ∃ out, merge_K_runs_tagged rs = some out ∧
      out.Perm (allTagged rs) ∧ List.Sorted lexLe out := by
  obtain ⟨qs, h, rds, hseed, hlq, hlr, hlh, hpos, hblk⟩ :=
    seedAux_spec rs 0 (fun r hr => ⟨(H r hr).1, (H r hr).2.1⟩)
  have hhmap : h = (List.range rs.length).map (fun j => h.getD j (0, 0)) := by
    have h1 := eq_map_range_getD h (0, 0)
    rw [hlh] at h1
    exact h1
  have hgd : ∀ j, j < rs.length → ∃ x : Int, h.getD j (0, 0) = (x, j) ∧
      x :: runRem qs rds j = (rs.getD j []).flatten := by
    intro j hj
    obtain ⟨x, hx1, hx2⟩ := hpos j hj
    refine ⟨x, ?_, hx2⟩
    rw [List.getD_eq_getElem?_getD, hx1]
    simp
  have hsnd : ∀ j, j < rs.length → (h.getD j (0, 0)).2 = j := by
    intro j hj
    obtain ⟨x, hx1, _⟩ := hgd j hj
    rw [hx1]
  have hmem_rs : ∀ j, j < rs.length → rs.getD j [] ∈ rs := by
    intro j hj
    exact List.getElem?_mem (getElem?_eq_some_getD rs j [] hj)
  have hinv : MergeInv rs.length rds qs h := by
    refine ⟨hlr, hlq, ?_, ?_, ?_, ?_, hblk⟩
    · rw [hhmap, List.pairwise_map]
      have hnd := List.nodup_range rs.length
      refine hnd.imp_of_mem ?_
      intro a b ha hb hab
      rw [List.mem_range] at ha hb
      rw [hsnd a ha, hsnd b hb]
      exact hab
    · intro e he
      rw [hhmap] at he
      rw [List.mem_map] at he
      obtain ⟨j, hj, rfl⟩ := he
      rw [List.mem_range] at hj
      rw [hsnd j hj]
      exact hj
    · intro e he
      rw [hhmap] at he
      rw [List.mem_map] at he
      obtain ⟨j, hj, rfl⟩ := he
      rw [List.mem_range] at hj
      obtain ⟨x, hx1, hx2⟩ := hgd j hj
      rw [hx1]
      show List.Sorted (· ≤ ·) (x :: runRem qs rds ((x, j) : Int × Nat).2)
      have hx2' : x :: runRem qs rds j = (rs.getD j []).flatten := hx2
      show List.Sorted (· ≤ ·) (x :: runRem qs rds j)
      rw [hx2']
      exact (H _ (hmem_rs j hj)).2.2
    · intro j hj hno
      exfalso
      have hfj : h.getD j (0, 0) ∈ h :=
        List.getElem?_mem (getElem?_eq_some_getD h j (0, 0) (by omega))
      exact (hno _ hfj) (hsnd j hj)
  have hall : (stateRem rs.length qs rds h).Perm (allTagged rs) := by
    have hcong : (List.range rs.length).map
        (fun j => tagRun j ((rs.getD j []).flatten)) =
      (List.range rs.length).map
        (fun j => h.getD j (0, 0) :: tagRun j (runRem qs rds j)) := by
      apply List.map_congr_left
      intro j hj
      rw [List.mem_range] at hj
      obtain ⟨x, hx1, hx2⟩ := hgd j hj
      rw [← hx2, hx1]
      rfl
    unfold allTagged stateRem
    rw [hcong]
    refine List.Perm.symm ?_
    refine (flatten_map_cons_perm _ _ (List.range rs.length)).trans ?_
    rw [← hhmap]
  have hlen : (stateRem rs.length qs rds h).length =
      (rs.map (fun r => r.flatten.length)).sum := by
    rw [hall.length_eq]
    unfold allTagged
    rw [List.length_flatten, List.map_map]
    have hcong2 : ∀ j ∈ List.range rs.length,
        (List.length ∘ fun j => tagRun j ((rs.getD j []).flatten)) j =
          (fun j => ((rs.getD j []).flatten).length) j := by
      intro j _
      simp [tagRun_length]
    rw [List.map_congr_left hcong2]
    rw [map_range_getD rs [] (fun r => r.flatten.length)]
  obtain ⟨out, hout, hperm, hsort⟩ := mergeLoop_spec
    ((rs.map (fun r => r.flatten.length)).sum + 1) rs.length rds qs h hinv
    (by omega)
  refine ⟨out, ?_, hperm.trans hall, hsort⟩
  unfold merge_K_runs_tagged
  rw [hseed]
  exact hout

theorem allTagged_map_fst (rs : List (List (List Int))) :
    (allTagged rs).map (fun e => e.1) = (rs.map (fun r => r.flatten)).flatten := by
  unfold allTagged
  rw [List.map_flatten, List.map_map]
  have hcong : ∀ j ∈ List.range rs.length,
      ((List.map (fun e : Int × Nat => e.1)) ∘
          fun j => tagRun j ((rs.getD j []).flatten)) j =
        (fun j => (rs.getD j []).flatten) j := by
    intro j _
    simp [tagRun_map_fst]
  rw [List.map_congr_left hcong]
  rw [map_range_getD rs [] (fun r => r.flatten)]

theorem merge_K_runs_spec (rs : List (List (List Int)))
    (H : ∀ r ∈ rs, r ≠ [] ∧ (∀ b ∈ r, b ≠ []) ∧
      List.Sorted (· ≤ ·) r.flatten) :
    ∃ out, merge_K_runs rs = some out ∧
      out.Perm ((rs.map (fun r => r.flatten)).flatten) ∧
      List.Sorted (· ≤ ·) out := by
  obtain ⟨t, ht, htperm, htsort⟩ := merge_K_runs_tagged_spec rs H
  refine ⟨t.map (fun e => e.1), ?_, ?_, ?_⟩
  · unfold merge_K_runs
    rw [ht]
    rfl
  · have h1 := htperm.map (fun e : Int × Nat => e.1)
    rw [allTagged_map_fst] at h1
    exact h1
  · exact List.Pairwise.map _ (fun a b hab => lexLe_fst hab) htsort

theorem merge_K_runs_single (r : List Int) (gr : List (List Int))
    (hflat : gr.flatten = r) (hblocks : ∀ b ∈ gr, b ≠ [])
    (hne : r ≠ []) (hsort : List.Sorted (· ≤ ·) r) :
    merge_K_runs [gr] = some r := by
  have hgr_ne : gr ≠ [] := by
    intro hc
    rw [hc] at hflat
    exact hne hflat.symm
  obtain ⟨out, hout, hperm, hsorted⟩ := merge_K_runs_spec [gr] (by
    intro rr hrr
    rw [List.mem_singleton] at hrr
    subst hrr
    refine ⟨hgr_ne, hblocks, ?_⟩
    rw [hflat]
    exact hsort)
  have hperm2 : out.Perm r := by
    refine hperm.trans ?_
    simp [hflat]
  have heq : out = r := List.eq_of_perm_of_sorted hperm2 hsorted hsort
  rw [hout, heq]

/-! ## Scheduler lemmas -/

theorem wholeRun_valid :
    ∀ r : List Int, (wholeRun r).flatten = r ∧ ∀ bl ∈ wholeRun r, bl ≠ [] := by
  intro r
  rcases r with _ | ⟨x, xs⟩
  · simp [wholeRun]
  · simp [wholeRun]

theorem mapOpt_merge_batches (g : List Int → List (List Int))
    (hg : ∀ r, (g r).flatten = r ∧ ∀ bl ∈ g r, bl ≠ []) :
    ∀ (cs : List (List (List Int))),
      (∀ c ∈ cs, c ≠ [] ∧ ∀ r ∈ c, r ≠ [] ∧ List.Sorted (· ≤ ·) r) →
      ∃ outs, mapOpt (fun batch => merge_K_runs (batch.map g)) cs = some outs ∧
        outs.length = cs.length ∧
        (outs.flatten).Perm (cs.flatten.flatten) ∧
        (∀ r ∈ outs, r ≠ [] ∧ List.Sorted (· ≤ ·) r) := by
  intro cs
  induction cs with
  | nil =>
    intro _
    exact ⟨[], rfl, rfl, List.Perm.refl _, by simp⟩
  | cons c cs ih =>
    intro H
    obtain ⟨hc_ne, hc_runs⟩ := H c (by simp)
    obtain ⟨outs, houts, hlen, hperm, hwf⟩ :=
      ih (fun c' hc' => H c' (List.mem_cons_of_mem _ hc'))
    have Hbatch : ∀ rr ∈ c.map g, rr ≠ [] ∧ (∀ b ∈ rr, b ≠ []) ∧
        List.Sorted (· ≤ ·) rr.flatten := by
      intro rr hrr
      rw [List.mem_map] at hrr
      obtain ⟨r, hr, rfl⟩ := hrr
      obtain ⟨hr_ne, hr_sorted⟩ := hc_runs r hr
      refine ⟨?_, (hg r).2, ?_⟩
      · intro hcontra
        have h1 := (hg r).1
        rw [hcontra] at h1
        exact hr_ne h1.symm
      · rw [(hg r).1]
        exact hr_sorted
    obtain ⟨out, hout, houtperm, houtsorted⟩ := merge_K_runs_spec (c.map g) Hbatch
    have houtperm2 : out.Perm c.flatten := by
      refine houtperm.trans ?_
      have hmap : (c.map g).map (fun r => r.flatten) = c := by
        rw [List.map_map]
        have hc2 : ∀ r ∈ c, ((fun r => r.flatten) ∘ g) r = id r :=
          fun r _ => (hg r).1
        rw [List.map_congr_left hc2, List.map_id]
      rw [hmap]
    have hout_ne : out ≠ [] := by
      intro hcontra
      rw [hcontra] at houtperm2
      have h0 : c.flatten = [] := houtperm2.symm.eq_nil
      rw [List.flatten_eq_nil_iff] at h0
      rcases c with _ | ⟨r, c'⟩
      · exact hc_ne rfl
      · exact (hc_runs r (by simp)).1 (h0 r (by simp))
    refine ⟨out :: outs, ?_, by simp [hlen], ?_, ?_⟩
    · unfold mapOpt
      rw [hout, houts]
    · simp only [List.flatten_cons, List.flatten_append]
      exact houtperm2.append hperm
    · intro r hr
      rcases List.mem_cons.mp hr with rfl | hr
      · exact ⟨hout_ne, houtsorted⟩
      · exact hwf r hr

theorem merge_runs_pass_spec (g : List Int → List (List Int))
    (hg : ∀ r, (g r).flatten = r ∧ ∀ bl ∈ g r, bl ≠ []) (Ksub1 : Nat)
    (runs : List (List Int))
    (hruns : ∀ r ∈ runs, r ≠ [] ∧ List.Sorted (· ≤ ·) r) :
    ∃ newRuns, merge_runs_pass g (Ksub1 + 1) runs = some newRuns ∧
      newRuns.length = (chunksOf Ksub1 runs).length ∧
      (newRuns.flatten).Perm runs.flatten ∧
      (∀ r ∈ newRuns, r ≠ [] ∧ List.Sorted (· ≤ ·) r) := by
  have hcs : ∀ c ∈ chunksOf Ksub1 runs, c ≠ [] ∧
      ∀ r ∈ c, r ≠ [] ∧ List.Sorted (· ≤ ·) r := by
    intro c hc
    refine ⟨chunksOf_ne_nil Ksub1 runs c hc, ?_⟩
    intro r hr
    refine hruns r ?_
    rw [← chunksOf_flatten Ksub1 runs, List.mem_flatten]
    exact ⟨c, hc, hr⟩
  obtain ⟨outs, houts, hlen, hperm, hwf⟩ :=
    mapOpt_merge_batches g hg (chunksOf Ksub1 runs) hcs
  refine ⟨outs, houts, hlen, ?_, hwf⟩
  rw [chunksOf_flatten] at hperm
  exact hperm

theorem merge_runs_correct (g : List Int → List (List Int))
    (hg : ∀ r, (g r).flatten = r ∧ ∀ bl ∈ g r, bl ≠ []) (K : Nat) :
    ∀ (fuel : Nat) (runs : List (List Int)),
      (∀ r ∈ runs, r ≠ [] ∧ List.Sorted (· ≤ ·) r) →
      ∀ out, merge_runs g K fuel runs = some out →
        out.Perm runs.flatten ∧ List.Sorted (· ≤ ·) out := by
  intro fuel
  induction fuel with
  | zero =>
    intro runs hruns out hout
    unfold merge_runs at hout
    by_cases hlen : runs.length > 1
    · rw [if_pos hlen] at hout; cases hout
    · rw [if_neg hlen] at hout
      rcases runs with _ | ⟨r, rest⟩
      · cases hout
      · have hr : r = out := Option.some.inj hout
        subst hr
        have hrest : rest = [] := by
          simp only [List.length_cons] at hlen
          exact List.length_eq_zero.mp (by omega)
        subst hrest
        exact ⟨by simp, (hruns r (by simp)).2⟩
  | succ fuel ih =>
    intro runs hruns out hout
    unfold merge_runs at hout
    by_cases hlen : runs.length > 1
    · rw [if_pos hlen] at hout
      cases K with
      | zero =>
        rw [show merge_runs_pass g 0 runs = none from rfl] at hout
        cases hout
      | succ Ksub1 =>
        obtain ⟨nr, hnr, _, hnrperm, hnrwf⟩ :=
          merge_runs_pass_spec g hg Ksub1 runs hruns
        rw [hnr] at hout
        obtain ⟨hp, hs⟩ := ih nr hnrwf out hout
        exact ⟨hp.trans hnrperm, hs⟩
    · rw [if_neg hlen] at hout
      rcases runs with _ | ⟨r, rest⟩
      · cases hout
      · have hr : r = out := Option.some.inj hout
        subst hr
        have hrest : rest = [] := by
          simp only [List.length_cons] at hlen
          exact List.length_eq_zero.mp (by omega)
        subst hrest
        exact ⟨by simp, (hruns r (by simp)).2⟩

theorem merge_runs_succ (g : List Int → List (List Int)) (K fuel : Nat)
    (runs : List (List Int)) :
    merge_runs g K (fuel + 1) runs =
      if runs.length > 1 then
        match merge_runs_pass g K runs with
        | none => none
        | some newRuns => merge_runs g K fuel newRuns
      else runs.head? := rfl

theorem merge_runs_pass_one (g : List Int → List (List Int))
    (hg : ∀ r, (g r).flatten = r ∧ ∀ bl ∈ g r, bl ≠ []) :
    ∀ (runs : List (List Int)),
      (∀ r ∈ runs, r ≠ [] ∧ List.Sorted (· ≤ ·) r) →
      merge_runs_pass g 1 runs = some runs := by
  intro runs
  induction runs with
  | nil => intro _; rfl
  | cons r rest ih =>
    intro hruns
    show mapOpt (fun batch => merge_K_runs (batch.map g))
      (chunksOf 0 (r :: rest)) = some (r :: rest)
    rw [chunksOf_cons]
    simp only [List.take_succ_cons, List.take_zero, List.drop_succ_cons,
      List.drop_zero]
    unfold mapOpt
    have h1 : merge_K_runs ([r].map g) = some r := by
      simp only [List.map_cons, List.map_nil]
      exact merge_K_runs_single r (g r) (hg r).1 (hg r).2
        (hruns r (by simp)).1 (hruns r (by simp)).2
    rw [h1]
    have h2 := ih (fun r' hr' => hruns r' (List.mem_cons_of_mem _ hr'))
    rw [show merge_runs_pass g 1 rest = mapOpt
      (fun batch => merge_K_runs (batch.map g)) (chunksOf 0 rest) from rfl] at h2
    rw [h2]

theorem merge_runs_one_diverges (g : List Int → List (List Int))
    (hg : ∀ r, (g r).flatten = r ∧ ∀ bl ∈ g r, bl ≠ []) :
    ∀ (fuel : Nat) (runs : List (List Int)),
      (∀ r ∈ runs, r ≠ [] ∧ List.Sorted (· ≤ ·) r) →
      2 ≤ runs.length →
      merge_runs g 1 fuel runs = none := by
  intro fuel
  induction fuel with
  | zero =>
    intro runs _ hlen
    unfold merge_runs
    rw [if_pos (by omega)]
  | succ fuel ih =>
    intro runs hruns hlen
    have heq : merge_runs g 1 (fuel + 1) runs = merge_runs g 1 fuel runs := by
      rw [merge_runs_succ, if_pos (by omega),
        merge_runs_pass_one g hg runs hruns]
    rw [heq]
    exact ih runs hruns hlen

theorem merge_runs_zero_fails (g : List Int → List (List Int)) (fuel : Nat)
    (runs : List (List Int)) (hlen : 2 ≤ runs.length) :
    merge_runs_pass g 0 runs = none ∧
    merge_runs g 0 (fuel + 1) runs = none := by
  refine ⟨rfl, ?_⟩
  rw [merge_runs_succ, if_pos (by omega)]
  rfl

theorem chunksOf_count_le {α : Type} (K : Nat) :
    ∀ (n : Nat) (l : List α), l.length ≤ n →
      (chunksOf K l).length ≤ l.length := by
  intro n
  induction n with
  | zero =>
    intro l hl
    have : l = [] := List.length_eq_zero.mp (Nat.le_zero.mp hl)
    subst this
    simp [chunksOf, chunksOfAux]
  | succ n ih =>
    intro l hl
    rcases l with _ | ⟨x, xs⟩
    · simp [chunksOf, chunksOfAux]
    · rw [chunksOf_cons]
      have h1 := ih ((x :: xs).drop (K + 1)) (by
        simp only [List.length_drop, List.length_cons]
        simp only [List.length_cons] at hl
        omega)
      simp only [List.length_cons, List.length_drop] at *
      omega

theorem chunksOf_length_lt {α : Type} (K : Nat) (hK : 1 ≤ K) (l : List α)
    (hl : 2 ≤ l.length) : (chunksOf K l).length < l.length := by
  rcases l with _ | ⟨x, xs⟩
  · simp at hl
  · rw [chunksOf_cons]
    have h1 := chunksOf_count_le K ((x :: xs).drop (K + 1)).length _ le_rfl
    simp only [List.length_cons, List.length_drop] at *
    omega

theorem merge_runs_terminates (g : List Int → List (List Int))
    (hg : ∀ r, (g r).flatten = r ∧ ∀ bl ∈ g r, bl ≠ []) (K : Nat)
    (hK : 2 ≤ K) :
    ∀ (fuel : Nat) (runs : List (List Int)), runs ≠ [] →
      runs.length ≤ fuel + 1 →
      (∀ r ∈ runs, r ≠ [] ∧ List.Sorted (· ≤ ·) r) →
      ∃ out, merge_runs g K fuel runs = some out := by
  intro fuel
  induction fuel with
  | zero =>
    intro runs hne hlen _
    rcases runs with _ | ⟨r, rest⟩
    · exact absurd rfl hne
    · have hrest : rest = [] := by
        simp only [List.length_cons] at hlen
        exact List.length_eq_zero.mp (by omega)
      subst hrest
      unfold merge_runs
      rw [if_neg (by simp)]
      exact ⟨r, rfl⟩
  | succ fuel ih =>
    intro runs hne hlen hruns
    by_cases hlen2 : runs.length > 1
    · obtain ⟨Ksub1, rfl⟩ : ∃ Ksub1, K = Ksub1 + 1 := ⟨K - 1, by omega⟩
      obtain ⟨nr, hnr, hnrlen, hnrperm, hnrwf⟩ :=
        merge_runs_pass_spec g hg Ksub1 runs hruns
      have heq : merge_runs g (Ksub1 + 1) (fuel + 1) runs =
          merge_runs g (Ksub1 + 1) fuel nr := by
        rw [merge_runs_succ, if_pos hlen2, hnr]
      rw [heq]
      have hnr_ne : nr ≠ [] := by
        intro hc
        rcases hruns0 : runs with _ | ⟨x, xs⟩
        · rw [hruns0] at hlen2; simp at hlen2
        · rw [hruns0, chunksOf_cons] at hnrlen
          rw [hc] at hnrlen
          simp at hnrlen
      have hlt : nr.length < runs.length := by
        rw [hnrlen]
        exact chunksOf_length_lt Ksub1 (by omega) runs (by omega)
      exact ih nr hnr_ne (by omega) hnrwf
    · rcases runs with _ | ⟨r, rest⟩
      · exact absurd rfl hne
      · have hrest : rest = [] := by
          simp only [List.length_cons] at hlen2
          exact List.length_eq_zero.mp (by omega)
        subst hrest
        unfold merge_runs
        rw [if_neg (by simp)]
        exact ⟨r, rfl⟩

/-! ## Claim theorems: merger and scheduler -/

/-- C1: any final output `external_merge_sort` produces is non-decreasing
and its multiset equals the multiset of input records (no loss, no
duplication, no fabrication), for every input — single-record and
run-boundary inputs included — and every configuration.  `g` is the decoded
block grouping the run readers yield: any grouping that concatenates back to
the run, in nonempty blocks. -/
theorem C1_external_merge_sort_correct (g : List Int → List (List Int))
    (numbers : List Int) (m b : Nat)
    (hg : ∀ r, (g r).flatten = r ∧ ∀ bl ∈ g r, bl ≠ [])
    (out : List Int) (hout : external_merge_sort g numbers m b = some out) :
    List.Sorted (· ≤ ·) out ∧ out.Perm numbers := by
  unfold external_merge_sort at hout
  have hruns : ∀ r ∈ generate_runs numbers (m / 3),
      r ≠ [] ∧ List.Sorted (· ≤ ·) r :=
    fun r hr => ⟨generate_runs_ne_nil numbers (m / 3) r hr,
      generate_runs_sorted numbers (m / 3) r hr⟩
  obtain ⟨hperm, hsort⟩ := merge_runs_correct g hg (m / b) (numbers.length + 1)
    (generate_runs numbers (m / 3)) hruns out hout
  exact ⟨hsort, hperm.trans (generate_runs_flatten_perm numbers (m / 3))⟩

theorem C1_external_merge_sort_correct_witness :
    (∀ r : List Int, (wholeRun r).flatten = r ∧ ∀ bl ∈ wholeRun r, bl ≠ []) ∧
    external_merge_sort wholeRun [5, 3, 8, 1, 9, 2] 360 120 =
      some [1, 2, 3, 5, 8, 9] ∧
    (List.Sorted (· ≤ ·) [(1 : Int), 2, 3, 5, 8, 9] ∧
      List.Perm [(1 : Int), 2, 3, 5, 8, 9] [5, 3, 8, 1, 9, 2]) :=
  ⟨wholeRun_valid, by decide,
    C1_external_merge_sort_correct wholeRun [5, 3, 8, 1, 9, 2] 360 120
      wholeRun_valid [1, 2, 3, 5, 8, 9] (by decide)⟩

/-- C8: the K-way merger is deterministic.  Heap entries are
`(record value, run index)` tuples compared lexicographically — value first,
run index as tie-break — so for a fixed list of input runs the tagged merged
output exists, is sorted in that order (equal values are emitted by
increasing run index), and is the unique such arrangement of the inputs'
tagged records. -/
theorem C8_merger_deterministic (readers : List (List (List Int)))
    (H : ∀ r ∈ readers, r ≠ [] ∧ (∀ b ∈ r, b ≠ []) ∧
      List.Sorted (· ≤ ·) r.flatten) :
    ∃ out, merge_K_runs_tagged readers = some out ∧
      List.Sorted lexLe out ∧ out.Perm (allTagged readers) ∧
      (∀ out', out'.Perm (allTagged readers) → List.Sorted lexLe out' →
        out' = out) := by
  obtain ⟨out, hout, hperm, hsort⟩ := merge_K_runs_tagged_spec readers H
  refine ⟨out, hout, hsort, hperm, ?_⟩
  intro out' hperm' hsort'
  exact List.eq_of_perm_of_sorted (hperm'.trans hperm.symm) hsort' hsort

theorem C8_merger_deterministic_witness :
    (∀ r ∈ ([[[5]], [[5]]] : List (List (List Int))), r ≠ [] ∧
      (∀ b ∈ r, b ≠ []) ∧ List.Sorted (· ≤ ·) r.flatten) ∧
    ∃ out, merge_K_runs_tagged [[[5]], [[5]]] = some out ∧
      List.Sorted lexLe out ∧ out.Perm (allTagged [[[5]], [[5]]]) ∧
      (∀ out', out'.Perm (allTagged [[[5]], [[5]]]) →
        List.Sorted lexLe out' → out' = out) :=
  ⟨by decide, C8_merger_deterministic [[[5]], [[5]]] (by decide)⟩

/-- C9: with at least two initial runs the merge scheduler terminates only
when the fan-in is at least 2.  With `K = 1` each pass merges every run
singly into an exact copy of itself, so the frontier size never decreases
and the while loop never finishes — no iteration budget yields a result;
with `K = 0` the batch slicing (`range(0, len, 0)`) fails on the first pass;
with `K ≥ 2` the loop terminates within `runs.length` passes. -/
theorem C9_scheduler_termination (g : List Int → List (List Int))
    (runs : List (List Int))
    (hg : ∀ r, (g r).flatten = r ∧ ∀ bl ∈ g r, bl ≠ [])
    (hruns : ∀ r ∈ runs, r ≠ [] ∧ List.Sorted (· ≤ ·) r)
    (hlen : 2 ≤ runs.length) :
    (merge_runs_pass g 1 runs = some runs ∧
      ∀ fuel, merge_runs g 1 fuel runs = none) ∧
    (merge_runs_pass g 0 runs = none ∧
      ∀ fuel, merge_runs g 0 (fuel + 1) runs = none) ∧
    (∀ K, 2 ≤ K → ∃ out, merge_runs g K runs.length runs = some out) := by
  refine ⟨⟨merge_runs_pass_one g hg runs hruns,
    fun fuel => merge_runs_one_diverges g hg fuel runs hruns hlen⟩,
    ⟨rfl, fun fuel => (merge_runs_zero_fails g fuel runs hlen).2⟩, ?_⟩
  intro K hK
  refine merge_runs_terminates g hg K hK runs.length runs ?_ (by omega) hruns
  intro hc
  rw [hc] at hlen
  simp at hlen

theorem C9_scheduler_termination_witness :
    (∀ r ∈ ([[1], [2]] : List (List Int)), r ≠ [] ∧
      List.Sorted (· ≤ ·) r) ∧
    2 ≤ ([[1], [2]] : List (List Int)).length ∧
    (∀ fuel, merge_runs wholeRun 1 fuel [[1], [2]] = none) ∧
    (∃ out, merge_runs wholeRun 2 2 [[1], [2]] = some out) :=
  ⟨by decide, by decide,
    (C9_scheduler_termination wholeRun [[1], [2]] wholeRun_valid (by decide)
      (by decide)).1.2,
    (C9_scheduler_termination wholeRun [[1], [2]] wholeRun_valid (by decide)
      (by decide)).2.2 2 (by omega)⟩

/-- C10: every run the generator produces is nonempty, and the merger, whose
seeding pulls a first block from every input run and pops its first record
without an emptiness check, never reaches those failure branches under the
nonempty-run invariant: on nonempty well-formed sorted runs `merge_K_runs`
returns a value (the modelled uncaught `StopIteration` and `IndexError`
never fire) and the run it produces is itself nonempty. -/
theorem C10_nonempty_run_invariant (numbers : List Int) (L : Nat)
    (readers : List (List (List Int)))
    (H : ∀ r ∈ readers, r ≠ [] ∧ (∀ b ∈ r, b ≠ []) ∧
      List.Sorted (· ≤ ·) r.flatten) :
    (∀ r ∈ generate_runs numbers L, r ≠ []) ∧
    (∃ out, merge_K_runs readers = some out ∧ (readers ≠ [] → out ≠ [])) := by
  refine ⟨generate_runs_ne_nil numbers L, ?_⟩
  obtain ⟨out, hout, hperm, _⟩ := merge_K_runs_spec readers H
  refine ⟨out, hout, ?_⟩
  intro hne hc
  rw [hc] at hperm
  have h0 : ((readers.map (fun r => r.flatten)).flatten) = [] :=
    hperm.symm.eq_nil
  rw [List.flatten_eq_nil_iff] at h0
  rcases readers with _ | ⟨r, rest⟩
  · exact hne rfl
  · obtain ⟨hr_ne, hr_blocks, _⟩ := H r (by simp)
    have h1 : r.flatten = [] := h0 r.flatten (by simp)
    rcases r with _ | ⟨bl, bls⟩
    · exact hr_ne rfl
    · rw [List.flatten_cons] at h1
      have hbl : bl = [] := by
        rcases bl with _ | ⟨y, ys⟩
        · rfl
        · simp at h1
      exact hr_blocks bl (by simp) hbl

theorem C10_nonempty_run_invariant_witness :
    (∀ r ∈ ([[[7]]] : List (List (List Int))), r ≠ [] ∧
      (∀ b ∈ r, b ≠ []) ∧ List.Sorted (· ≤ ·) r.flatten) ∧
    (∀ r ∈ generate_runs [5, 3] 40, r ≠ []) ∧
    (∃ out, merge_K_runs [[[7]]] = some out ∧
      (([[[7]]] : List (List (List Int))) ≠ [] → out ≠ [])) :=
  ⟨by decide, (C10_nonempty_run_invariant [5, 3] 40 [[[7]]] (by decide)).1,
    (C10_nonempty_run_invariant [5, 3] 40 [[[7]]] (by decide)).2⟩

end EMS
